import Mathlib

/-!
Verification development for the picoclaw/clawlet gateway.

This file shallowly embeds the parts of the Go source that the checked
properties speak about:

* the 5-field cron expression parser and the `Next` schedule search
  (`cron` package), over a proleptic-Gregorian civil calendar in UTC at
  minute granularity (the Go code's own granularity);
* the cron job store operations `Add`, `Toggle`, the post-execution state
  update, and `computeNextRunMS`;
* the agent turn loop's iteration bound and final-reply selection;
* the `message` tool dispatch path of the tool registry;
* the channel `AllowList`;
* the hybrid memory scorer (`resolveSearchConfig` weight handling,
  `mergeHybrid`, `clampResults`, `bm25RankToScore`), with `float64`
  scores modelled as rationals;
* the `memory_get` path validation (`ReadFile` / `isMemoryPath`), with the
  filesystem abstracted as a partial map from absolute paths to file kinds.

Go string helpers (`strings.TrimSpace`, `strings.Fields`, `strings.Cut`
loops, `strconv.Atoi`) are reimplemented over `List Char` so that proofs
and kernel evaluation stay simple.
-/

/-! ### Go string helpers -/

/-- ASCII whitespace recognised by `unicode.IsSpace` (the non-ASCII space
code points are irrelevant to the inputs considered here). -/
def isSpaceChar (c : Char) : Bool :=
  c = ' ' || c = '\t' || c = '\n' || c = '\r' || c = '\x0b' || c = '\x0c'

/-- Character-list core of `strings.TrimSpace`. -/
def trimList (l : List Char) : List Char :=
  ((l.dropWhile isSpaceChar).reverse.dropWhile isSpaceChar).reverse

/-- `strings.TrimSpace`. -/
def trimSpace (s : String) : String :=
  String.mk (trimList s.data)

/-- Split a character list on a separator predicate, keeping empty
segments (the semantics of `strings.Split` and of the repeated
`strings.Cut` loops in the cron parser). -/
def splitBy (p : Char → Bool) : List Char → List (List Char)
  | [] => [[]]
  | c :: cs =>
    match splitBy p cs with
    | [] => [[]]
    | r :: rs => if p c then [] :: r :: rs else (c :: r) :: rs

/-- `strings.Split(s, sep)` for a one-character separator. -/
def splitChar (sep : Char) (s : String) : List String :=
  (splitBy (fun c => c = sep) s.data).map String.mk

/-- `strings.Fields`: whitespace-separated fields, empty runs dropped. -/
def goFields (s : String) : List String :=
  ((splitBy isSpaceChar s.data).filter (fun l => !l.isEmpty)).map String.mk

/-- Digit run to number, `none` on a non-digit. -/
def digitsToNat : List Char → Option Nat
  | [] => none
  | l => l.foldlM (fun acc c => if c.isDigit then some (acc * 10 + (c.toNat - '0'.toNat)) else none) 0

/-- `strconv.Atoi`: optional sign followed by at least one digit. -/
def goAtoi (s : String) : Option Int :=
  match s.data with
  | [] => none
  | '+' :: rest => (digitsToNat rest).map Int.ofNat
  | '-' :: rest => (digitsToNat rest).map (fun n => -(Int.ofNat n))
  | l => (digitsToNat l).map Int.ofNat

/-- ASCII lower-casing (`strings.ToLower`; the inputs compared here are
ASCII). -/
def asciiLower (c : Char) : Char :=
  if 'A' ≤ c ∧ c ≤ 'Z' then Char.ofNat (c.toNat + 32) else c

/-- `strings.ToLower` over ASCII. -/
def strToLower (s : String) : String :=
  String.mk (s.data.map asciiLower)

/-- `strings.HasPrefix` (structural, kernel-reducible). -/
def strStartsWith (s pre : String) : Bool :=
  pre.data.isPrefixOf s.data

/-- `strings.HasSuffix` (structural, kernel-reducible). -/
def strEndsWith (s suf : String) : Bool :=
  suf.data.isSuffixOf s.data

/-- Drop the first `n` characters. -/
def strDrop (s : String) (n : Nat) : String :=
  String.mk (s.data.drop n)

/-- `strings.Join(parts, sep)`. -/
def strJoin (sep : String) : List String → String
  | [] => ""
  | [x] => x
  | x :: xs => x ++ sep ++ strJoin sep xs

/-! ### Cron expression parsing (`parseCron5` and friends) -/

structure CronBounds where
  min : Int
  max : Int
  names : String → Option Int

def cronMinuteBounds : CronBounds := ⟨0, 59, fun _ => none⟩
def cronHourBounds : CronBounds := ⟨0, 23, fun _ => none⟩
def cronDomBounds : CronBounds := ⟨1, 31, fun _ => none⟩

def monthNames (s : String) : Option Int :=
  if s = "jan" then some 1 else if s = "feb" then some 2 else
  if s = "mar" then some 3 else if s = "apr" then some 4 else
  if s = "may" then some 5 else if s = "jun" then some 6 else
  if s = "jul" then some 7 else if s = "aug" then some 8 else
  if s = "sep" then some 9 else if s = "oct" then some 10 else
  if s = "nov" then some 11 else if s = "dec" then some 12 else none

def dowNames (s : String) : Option Int :=
  if s = "sun" then some 0 else if s = "mon" then some 1 else
  if s = "tue" then some 2 else if s = "wed" then some 3 else
  if s = "thu" then some 4 else if s = "fri" then some 5 else
  if s = "sat" then some 6 else none

def cronMonthBounds : CronBounds := ⟨1, 12, monthNames⟩
def cronDowBounds : CronBounds := ⟨0, 7, dowNames⟩

/-- `parseCronValue`: trimmed numeric literal or named month/weekday. -/
def parseCronValue (s : String) (bounds : CronBounds) : Except String Int :=
  let s := trimSpace s
  match goAtoi s with
  | some n => .ok n
  | none =>
    match bounds.names (strToLower s) with
    | some v => .ok v
    | none => .error "bad value"

/-- Fuel-indexed loop of `buildBits`; for the in-bounds arguments the Go
code supplies (`endv ≤ 63`, `step ≥ 1`) fuel 128 is never exhausted. -/
def buildBitsAux (isDow : Bool) (endv step : Nat) : Nat → Nat → Nat
  | 0, _ => 0
  | f + 1, v =>
    if v ≤ endv then
      (1 <<< (if isDow && v == 7 then 0 else v)) ||| buildBitsAux isDow endv step f (v + step)
    else 0

/-- `buildBits`: set one bit per value in `[v, endv]` stepping by `step`;
for day-of-week the value `7` aliases to bit `0`.  The Go loop or-accumulates
left to right; or-ing right to left yields the same bit set. -/
def buildBits (v endv step : Nat) (isDow : Bool) : Nat :=
  if step = 0 then 0 else buildBitsAux isDow endv step 128 v

/-- `hasBit`: test bit `value` of a 64-bit mask (out-of-range is false). -/
def hasBit (bits : Nat) (value : Int) : Bool :=
  if value < 0 || value > 63 then false else bits.testBit value.toNat

/-- The `strings.Cut(seg, "/")` prologue of `parseCronSegment`, with the
“too many '/'” and step checks. -/
def cronSegmentStep (seg : String) : Except String (String × Int × Bool) :=
  match splitChar '/' seg with
  | [b] => .ok (b, 1, false)
  | [b, st] =>
    match goAtoi st with
    | none => .error "bad step"
    | some n => if n ≤ 0 then .error "step must be positive" else .ok (b, n, true)
  | _ => .error "too many slashes"

/-- The `switch` of `parseCronSegment`: `(start, end, star)` of a segment
base; `star` only for `*`/`?` with step 1. -/
def cronSegmentRange (base : String) (step : Int) (hasStep : Bool)
    (bounds : CronBounds) : Except String (Int × Int × Bool) :=
  if base = "*" || base = "?" then
    .ok (bounds.min, bounds.max, step == 1)
  else if base.data.contains '-' then
    match splitChar '-' base with
    | [left, right] => do
      let s ← parseCronValue left bounds
      let e ← parseCronValue right bounds
      .ok (s, e, false)
    | _ => .error "bad range"
  else do
    let val ← parseCronValue base bounds
    .ok (val, if hasStep then bounds.max else val, false)

/-- `parseCronSegment`: one comma-separated segment, returning its bit mask
and whether it was a plain `*`/`?` (step 1). -/
def parseCronSegment (seg : String) (bounds : CronBounds) (isDow : Bool) :
    Except String (Nat × Bool) := do
  let (base, step, _hasStep) ← cronSegmentStep seg
  let (start, stop, star) ← cronSegmentRange base step _hasStep bounds
  if start < bounds.min || start > bounds.max then .error "value out of range"
  else if stop < bounds.min || stop > bounds.max then .error "value out of range"
  else if stop < start then .error "range start greater than end"
  else .ok (buildBits start.toNat stop.toNat step.toNat isDow, star)

/-- The comma loop of `parseCronField`. -/
def parseCronParts (bounds : CronBounds) (isDow : Bool) :
    List String → Nat × Bool → Except String (Nat × Bool)
  | [], acc => .ok acc
  | p :: ps, (bits, hasStar) =>
    let part := trimSpace p
    if part = "" then .error "empty segment"
    else do
      let (b, star) ← parseCronSegment part bounds isDow
      parseCronParts bounds isDow ps (bits ||| b, hasStar || star)

/-- `parseCronField`: all comma-separated segments or-ed together. -/
def parseCronField (field : String) (bounds : CronBounds) (isDow : Bool) :
    Except String (Nat × Bool) := do
  let (bits, hasStar) ← parseCronParts bounds isDow (splitChar ',' field) (0, false)
  if bits = 0 then .error "no values" else .ok (bits, hasStar)

structure CronSchedule where
  minute : Nat
  hour : Nat
  dom : Nat
  month : Nat
  dow : Nat
  domStar : Bool
  dowStar : Bool
deriving DecidableEq, Repr

/-- `parseCron5`: trim, split into exactly five whitespace fields, parse
each (the `sync.Map` expression cache is semantically transparent). -/
def parseCron5 (expr : String) : Except String CronSchedule := do
  let expr := trimSpace expr
  if expr = "" then .error "empty cron expression"
  else
    match goFields expr with
    | [f0, f1, f2, f3, f4] => do
      let (minute, _) ← parseCronField f0 cronMinuteBounds false
      let (hour, _) ← parseCronField f1 cronHourBounds false
      let (dom, domStar) ← parseCronField f2 cronDomBounds false
      let (month, _) ← parseCronField f3 cronMonthBounds false
      let (dow, dowStar) ← parseCronField f4 cronDowBounds true
      .ok ⟨minute, hour, dom, month, dow, domStar, dowStar⟩
    | _ => .error "expected 5 fields"

/-! ### Civil calendar (UTC, minute granularity)

`time.Time` values are modelled as civil date-times in UTC.  `Next` is
documented as minute-granularity, and every operation it performs keeps
seconds at zero, so seconds are dropped from the model.  Ordering of valid
civil times agrees with `time.Time` ordering and is captured by `Civil.key`.
-/

structure Civil where
  year : Int
  month : Int
  day : Int
  hour : Int
  minute : Int
deriving DecidableEq, Repr

/-- The Go zero `time.Time{}`: January 1, year 1, 00:00 UTC. -/
def zeroCivil : Civil := ⟨1, 1, 1, 0, 0⟩

def isLeap (y : Int) : Bool :=
  y % 4 == 0 && (y % 100 != 0 || y % 400 == 0)

def daysInMonth (y m : Int) : Int :=
  if m = 2 then (if isLeap y then 29 else 28)
  else if m = 4 || m = 6 || m = 9 || m = 11 then 30
  else 31

/-- Days since the Unix epoch of a civil date (Gregorian, standard
days-from-civil computation). -/
def daysFromCivil (y m d : Int) : Int :=
  let y' := y - (if m ≤ 2 then 1 else 0)
  let era := y' / 400
  let yoe := y' - era * 400
  let mp := m + (if m > 2 then -3 else 9)
  let doy := (153 * mp + 2) / 5 + d - 1
  let doe := yoe * 365 + yoe / 4 - yoe / 100 + doy
  era * 146097 + doe - 719468

/-- Civil date of a count of days since the Unix epoch. -/
def civilFromDays (z : Int) : Int × Int × Int :=
  let z := z + 719468
  let era := z / 146097
  let doe := z - era * 146097
  let yoe := (doe - doe / 1460 + doe / 36524 - doe / 146096) / 365
  let y := yoe + era * 400
  let doy := doe - (365 * yoe + yoe / 4 - yoe / 100)
  let mp := (5 * doy + 2) / 153
  let d := doy - (153 * mp + 2) / 5 + 1
  let m := mp + (if mp < 10 then 3 else -9)
  (y + (if m ≤ 2 then 1 else 0), m, d)

/-- `t.Weekday()`: day 0 (1970-01-01) was a Thursday. -/
def weekdayOf (c : Civil) : Int :=
  (daysFromCivil c.year c.month c.day + 4) % 7

/-- `t.UnixMilli()` for a civil time. -/
def civilToMS (c : Civil) : Int :=
  ((daysFromCivil c.year c.month c.day * 24 + c.hour) * 60 + c.minute) * 60000

/-- Civil time of a count of minutes since the Unix epoch. -/
def civilOfMinutes (n : Int) : Civil :=
  let days := n / 1440
  let rem := n % 1440
  let (y, m, d) := civilFromDays days
  ⟨y, m, d, rem / 60, rem % 60⟩

/-- In-range civil date-times (what an actual `time.Time` denotes). -/
def Civil.Valid (c : Civil) : Prop :=
  1 ≤ c.month ∧ c.month ≤ 12 ∧ 1 ≤ c.day ∧ c.day ≤ daysInMonth c.year c.month ∧
  0 ≤ c.hour ∧ c.hour ≤ 23 ∧ 0 ≤ c.minute ∧ c.minute ≤ 59

instance (c : Civil) : Decidable c.Valid := by unfold Civil.Valid; infer_instance

/-- Order-embedding of valid civil times into the integers: lexicographic
in (year, month, day, hour, minute), with slot widths 13/32/24/60. -/
def Civil.key (c : Civil) : Int :=
  (((c.year * 13 + c.month) * 32 + c.day) * 24 + c.hour) * 60 + c.minute

/-- `t.AddDate(0, 0, 1)` on a valid time. -/
def addDay (c : Civil) : Civil :=
  if c.day + 1 ≤ daysInMonth c.year c.month then ⟨c.year, c.month, c.day + 1, c.hour, c.minute⟩
  else if c.month + 1 ≤ 12 then ⟨c.year, c.month + 1, 1, c.hour, c.minute⟩
  else ⟨c.year + 1, 1, 1, c.hour, c.minute⟩

/-- `t.Add(1 * time.Hour)` on a valid time. -/
def addHour (c : Civil) : Civil :=
  if c.hour + 1 ≤ 23 then ⟨c.year, c.month, c.day, c.hour + 1, c.minute⟩
  else addDay ⟨c.year, c.month, c.day, 0, c.minute⟩

/-- `t.Add(1 * time.Minute)` on a valid time. -/
def addMinute (c : Civil) : Civil :=
  if c.minute + 1 ≤ 59 then ⟨c.year, c.month, c.day, c.hour, c.minute + 1⟩
  else addHour ⟨c.year, c.month, c.day, c.hour, 0⟩

/-- `t.Add(k * time.Hour)` for `k ≥ 0`, as iterated hour steps. -/
def addHoursN (c : Civil) : Nat → Civil
  | 0 => c
  | k + 1 => addHoursN (addHour c) k

/-- `t.AddDate(0, 1, 0)`: month increment with Go's `time.Date`
normalisation (for days ≤ 31 a single day-overflow carry suffices). -/
def addMonth (c : Civil) : Civil :=
  let y1 := if c.month + 1 > 12 then c.year + 1 else c.year
  let m1 := if c.month + 1 > 12 then c.month + 1 - 12 else c.month + 1
  if c.day ≤ daysInMonth y1 m1 then ⟨y1, m1, c.day, c.hour, c.minute⟩
  else
    let d2 := c.day - daysInMonth y1 m1
    if m1 + 1 > 12 then ⟨y1 + 1, 1, d2, c.hour, c.minute⟩
    else ⟨y1, m1 + 1, d2, c.hour, c.minute⟩

/-! ### `cronSchedule.Next` -/

/-- `cronSchedule.dayMatches`. -/
def dayMatches (s : CronSchedule) (c : Civil) : Bool :=
  let domMatch := hasBit s.dom c.day
  let dowMatch := hasBit s.dow (weekdayOf c)
  if s.domStar || s.dowStar then domMatch && dowMatch
  else domMatch || dowMatch

/-- Fuel bound for the `Next` search; far above the number of loop
iterations any ≤ 6-year search can perform. -/
def cronFuel : Nat := 134217728

/-- Control point inside `Next`'s chain of for-loops. -/
inductive CronStage
  | monthS
  | dayS
  | hourS
  | minuteS
deriving DecidableEq, Repr

/-- One iteration of the month loop: when `added` is still false the time
first re-anchors to the first of the current month at midnight, then a
month is added. -/
def monthStepT (t : Civil) (added : Bool) : Civil :=
  addMonth (if !added then ⟨t.year, t.month, 1, 0, 0⟩ else t)

/-- One iteration of the day loop: re-anchor to midnight when `added` is
false, add a day, then the DST re-anchoring (dead in UTC since the hour
stays 0). -/
def dayStepT (t : Civil) (added : Bool) : Civil :=
  let t0 := if !added then ⟨t.year, t.month, t.day, 0, 0⟩ else t
  let t1 := addDay t0
  if t1.hour ≠ 0 then
    if t1.hour > 12 then addHoursN t1 (24 - t1.hour).toNat
    else ⟨t1.year, t1.month, t1.day, 0, t1.minute⟩
  else t1

/-- One iteration of the hour loop. -/
def hourStepT (t : Civil) (added : Bool) : Civil :=
  addHour (if !added then ⟨t.year, t.month, t.day, t.hour, 0⟩ else t)

/-- The body of `Next` after the initial round-up, as one fuel-indexed
step function over the four loops; `goto WRAP` is the year-limit check
followed by a jump back to the month loop.  (`Truncate(time.Minute)` in
the minute loop is the identity at minute granularity.) -/
def cronIter (s : CronSchedule) (yl : Int) : Nat → CronStage → Civil → Bool → Civil
  | 0, _, _, _ => zeroCivil
  | f + 1, .monthS, t, added =>
    if hasBit s.month t.month then cronIter s yl f .dayS t added
    else
      let t1 := monthStepT t added
      if t1.month = 1 then
        if t1.year > yl then zeroCivil else cronIter s yl f .monthS t1 true
      else cronIter s yl f .monthS t1 true
  | f + 1, .dayS, t, added =>
    if dayMatches s t then cronIter s yl f .hourS t added
    else
      let t2 := dayStepT t added
      if t2.day = 1 then
        if t2.year > yl then zeroCivil else cronIter s yl f .monthS t2 true
      else cronIter s yl f .dayS t2 true
  | f + 1, .hourS, t, added =>
    if hasBit s.hour t.hour then cronIter s yl f .minuteS t added
    else
      let t1 := hourStepT t added
      if t1.hour = 0 then
        if t1.year > yl then zeroCivil else cronIter s yl f .monthS t1 true
      else cronIter s yl f .hourS t1 true
  | f + 1, .minuteS, t, _added =>
    if hasBit s.minute t.minute then t
    else
      let t1 := addMinute t
      if t1.minute = 0 then
        if t1.year > yl then zeroCivil else cronIter s yl f .monthS t1 true
      else cronIter s yl f .minuteS t1 true

/-- The body of `Next` after the initial round-up: year limit is five
years past the (rounded) start. -/
def cronSearch (s : CronSchedule) (c0 : Civil) : Civil :=
  let yl := c0.year + 5
  if c0.year > yl then zeroCivil else cronIter s yl cronFuel .monthS c0 false

/-- `cronSchedule.Next` on a minute-granularity time: the initial
`t.Add(Minute - sec - nsec)` is exactly one minute. -/
def cronNext (s : CronSchedule) (t : Civil) : Civil :=
  cronSearch s (addMinute t)

/-- `cronSchedule.Next` fed with `time.UnixMilli(now)` and read back with
`UnixMilli`, as `computeNextRunMS` does: the round-up to the next minute
boundary is `now / 60000 + 1` minutes (floor division). -/
def cronNextMS (s : CronSchedule) (now : Int) : Int :=
  civilToMS (cronSearch s (civilOfMinutes (now / 60000 + 1)))

deriving instance DecidableEq for Except

/-! ### Cron service (job store operations) -/

structure Schedule where
  kind : String
  atMS : Int
  everyMS : Int
  expr : String
  tz : String
deriving DecidableEq, Repr

structure Payload where
  kind : String
  message : String
  deliver : Bool
  channel : String
  toAddr : String
deriving DecidableEq, Repr

structure JobState where
  nextRunAtMS : Int
  lastRunAtMS : Int
  lastStatus : String
  lastError : String
deriving DecidableEq, Repr

structure Job where
  id : String
  name : String
  enabled : Bool
  schedule : Schedule
  payload : Payload
  state : JobState
  createdAtMS : Int
  updatedAtMS : Int
  deleteAfterRun : Bool
deriving DecidableEq, Repr

/-- `computeNextRunMS`. -/
def computeNextRunMS (s : Schedule) (now : Int) : Int :=
  if s.kind = "at" then
    if s.atMS > now then s.atMS else 0
  else if s.kind = "every" then
    if s.everyMS ≤ 0 then 0 else now + s.everyMS
  else if s.kind = "cron" then
    if trimSpace s.expr = "" then 0
    else
      match parseCron5 (trimSpace s.expr) with
      | .error _ => 0
      | .ok sched => cronNextMS sched now
  else 0

/-- `validateSchedule`. -/
def validateSchedule (s : Schedule) (now : Int) : Except String Unit :=
  if s.kind = "at" then
    if s.atMS ≤ 0 then .error "at schedule requires a valid timestamp"
    else if s.atMS ≤ now then .error "at schedule must be in the future"
    else .ok ()
  else if s.kind = "every" then
    if s.everyMS ≤ 0 then .error "every schedule requires positive period" else .ok ()
  else if s.kind = "cron" then
    if trimSpace s.expr = "" then .error "cron schedule requires expr"
    else
      match parseCron5 (trimSpace s.expr) with
      | .error _ => .error "invalid cron expression"
      | .ok _ => .ok ()
  else .error "unknown schedule kind"

/-- `Service.Add` (store already loaded; `newId` stands for the random id;
persistence is modelled as returning the new job list). -/
def addJob (jobs : List Job) (name : String) (sched : Schedule) (payload : Payload)
    (now : Int) (newId : String) : Except String (Job × List Job) :=
  match validateSchedule sched now with
  | .error e => .error e
  | .ok _ =>
    let nextRun := computeNextRunMS sched now
    if nextRun ≤ 0 then .error "failed to compute next run"
    else
      let j : Job :=
        { id := newId, name := name, enabled := true, schedule := sched, payload := payload
          state := { nextRunAtMS := nextRun, lastRunAtMS := 0, lastStatus := "", lastError := "" }
          createdAtMS := now, updatedAtMS := now, deleteAfterRun := false }
      .ok (j, jobs ++ [j])

/-- `Service.Toggle`: flip the first job with the given id; re-enabling
recomputes the next run, disabling clears it.  Returns the new list and
whether a job was found. -/
def toggleJob (jobs : List Job) (id : String) (disable : Bool) (now : Int) :
    List Job × Bool :=
  match jobs with
  | [] => ([], false)
  | j :: rest =>
    if j.id = id then
      let enabled := !disable
      let j' := { j with
        enabled := enabled
        state := { j.state with
          nextRunAtMS := if enabled then computeNextRunMS j.schedule now else 0 }
        updatedAtMS := now }
      (j' :: rest, true)
    else
      let (rest', found) := toggleJob rest id disable now
      (j :: rest', found)

/-- `Service.recomputeNextRunsLocked`. -/
def recomputeNextRuns (jobs : List Job) (now : Int) : List Job :=
  jobs.map fun j =>
    if !j.enabled then { j with state := { j.state with nextRunAtMS := 0 } }
    else { j with state := { j.state with nextRunAtMS := computeNextRunMS j.schedule now } }

/-- The store update performed by `Service.execute` after the handler ran:
record status on the first job with the executed job's id; a one-shot
`at` job is deleted (`delete_after_run`) or disabled, other kinds get a
fresh next-run time.  `err` is the handler's error, `start` the time
taken before the handler, `updated` the time after it. -/
def executeUpdate (jobs : List Job) (id : String) (start updated : Int)
    (err : Option String) : List Job :=
  match jobs with
  | [] => []
  | j :: rest =>
    if j.id = id then
      let st1 : JobState :=
        { j.state with
          lastRunAtMS := start
          lastStatus := if err.isSome then "error" else "ok"
          lastError := err.getD "" }
      let j1 : Job := { j with state := st1, updatedAtMS := updated }
      if j1.schedule.kind = "at" then
        if j1.deleteAfterRun then rest
        else { j1 with enabled := false, state := { st1 with nextRunAtMS := 0 } } :: rest
      else
        { j1 with state := { st1 with
            nextRunAtMS := computeNextRunMS j1.schedule updated } } :: rest
    else j :: executeUpdate rest id start updated err

/-! ### Agent turn loop (`Loop.processDirect` iteration structure) -/

structure ToolCall where
  id : String
  name : String
  arguments : String
deriving DecidableEq, Repr

/-- One LLM chat response as the loop sees it. -/
structure ChatResult where
  content : String
  toolCalls : List ToolCall
deriving DecidableEq, Repr

/-- Modelled from the spec: `ChatResult.HasToolCalls` is defined in the
LLM client file absent from the sources; per the spec a response “contains
tool calls” exactly when its tool-call list is non-empty. -/
def hasToolCalls (r : ChatResult) : Bool :=
  !r.toolCalls.isEmpty

/-- `NewLoop`'s iteration-bound default: 20 when the option is ≤ 0. -/
def effectiveMaxIters (optMaxIters : Int) : Int :=
  if optMaxIters ≤ 0 then 20 else optMaxIters

/-- The `for iter := 0; iter < maxIters` loop of `processDirect`, with the
LLM abstracted as an oracle from iteration index to response.  `final` is
only assigned from a response without tool calls, which also exits the
loop; tool-call rounds extend the prompt (not modelled — the oracle may
depend on the index) and leave `final` empty. -/
def processLoop (chat : Nat → ChatResult) : Nat → Nat → String
  | 0, _ => ""
  | n + 1, i =>
    let res := chat i
    if hasToolCalls res then processLoop chat n (i + 1)
    else res.content

/-- `processDirect`'s reply selection: run the loop, then substitute the
sentinel for a blank result. -/
def processFinal (chat : Nat → ChatResult) (maxIters : Nat) : String :=
  let final := processLoop chat maxIters 0
  if trimSpace final = "" then "(no response)" else final

/-! ### `message` tool (registry dispatch plus `Registry.message`) -/

structure OutboundMsg where
  channel : String
  chatID : String
  content : String
deriving DecidableEq, Repr

structure ToolCtx where
  channel : String
  chatID : String
  sessionKey : String
deriving DecidableEq, Repr

/-- The `"message"` case of `Registry.Execute` followed by
`Registry.message`.  The second component is the trace of messages handed
to the outbound queue (`r.Outbound`, modelled as always accepting);
`outboundConfigured` models `r.Outbound != nil`. -/
def messageTool (outboundConfigured : Bool) (tctx : ToolCtx)
    (content channel chatID : String) : Except String String × List OutboundMsg :=
  let ch := trimSpace channel
  let cid := trimSpace chatID
  if ch = "" || cid = "" then (.error "message requires explicit channel and chat id", [])
  else if trimSpace tctx.channel ≠ "" ∧ trimSpace tctx.chatID ≠ "" then
    if ch = trimSpace tctx.channel ∧ cid = trimSpace tctx.chatID then
      (.error "message to current session is not allowed", [])
    else
      let c := trimSpace content
      if c = "" then (.error "content is empty", [])
      else if !outboundConfigured then (.error "message sending not configured", [])
      else (.ok ("Message sent to " ++ ch ++ ":" ++ cid), [⟨ch, cid, c⟩])
  else
    let c := trimSpace content
    if c = "" then (.error "content is empty", [])
    else if !outboundConfigured then (.error "message sending not configured", [])
    else (.ok ("Message sent to " ++ ch ++ ":" ++ cid), [⟨ch, cid, c⟩])

/-! ### Channel allow-list -/

/-- `AllowList.Allowed`. -/
def Allowed (allowFrom : List String) (senderID : String) : Bool :=
  if allowFrom.isEmpty then true
  else
    let senderID := trimSpace senderID
    if senderID = "" then false
    else if allowFrom.contains senderID then true
    else if senderID.data.contains '|' then
      (splitChar '|' senderID).any fun p =>
        let p := trimSpace p
        if p = "" then false else allowFrom.contains p
    else false

/-! ### Hybrid memory scorer

`float64` scores are modelled as rationals; the `NaN`/`±Inf` guard of
`bm25RankToScore` has no rational counterpart and is dropped.  The Go
`map[string]merged` is modelled as an insertion-ordered association list
(a determinisation of the unspecified map iteration order), and
`sort.Slice` as a merge sort with the same comparator.
-/

/-- `clampFloat`. -/
def clampFloat (v lo hi : ℚ) : ℚ :=
  if v < lo then lo else if v > hi then hi else v

/-- The hybrid-weight portion of `resolveSearchConfig`: clamp each weight
to `[0, 1]`, then renormalise when the sum is positive. -/
def resolveWeights (vw tw : ℚ) : ℚ × ℚ :=
  let v := clampFloat vw 0 1
  let t := clampFloat tw 0 1
  let sum := v + t
  if sum > 0 then (v / sum, t / sum) else (v, t)

/-- `bm25RankToScore` (finite ranks): negative ranks clamp to zero. -/
def bm25RankToScore (rank : ℚ) : ℚ :=
  let r := if rank < 0 then 0 else rank
  1 / (1 + r)

structure SearchResult where
  path : String
  startLine : Int
  endLine : Int
  score : ℚ
  snippet : String
deriving DecidableEq, Repr

structure VectorRow where
  id : String
  path : String
  startLine : Int
  endLine : Int
  snippet : String
  vectorScore : ℚ
deriving DecidableEq, Repr

structure KeywordRow where
  id : String
  path : String
  startLine : Int
  endLine : Int
  snippet : String
  textScore : ℚ
deriving DecidableEq, Repr

/-- The row of `searchKeywordLocked` for a hit with bm25 rank `rank`. -/
def keywordCandidate (id path : String) (startLine endLine : Int)
    (snippet : String) (rank : ℚ) : KeywordRow :=
  ⟨id, path, startLine, endLine, snippet, bm25RankToScore rank⟩

/-- The `merged` record of `mergeHybrid`. -/
structure MergedRow where
  path : String
  startLine : Int
  endLine : Int
  snippet : String
  vectorScore : ℚ
  textScore : ℚ
deriving DecidableEq, Repr

/-- Map assignment on an association list: replace the first binding of
the key or append a new one. -/
def setEntry (m : List (String × MergedRow)) (k : String) (v : MergedRow) :
    List (String × MergedRow) :=
  match m with
  | [] => [(k, v)]
  | (k', v') :: rest => if k' = k then (k, v) :: rest else (k', v') :: setEntry rest k v

/-- Map lookup on an association list. -/
def getEntry (m : List (String × MergedRow)) (k : String) : Option MergedRow :=
  match m with
  | [] => none
  | (k', v') :: rest => if k' = k then some v' else getEntry rest k

/-- The merged entry created for a vector hit (text score zero). -/
def vecMergedRow (r : VectorRow) : MergedRow :=
  ⟨r.path, r.startLine, r.endLine, r.snippet, r.vectorScore, 0⟩

/-- One step of `mergeHybrid`'s first loop. -/
def mergeStepVec (m : List (String × MergedRow)) (r : VectorRow) :
    List (String × MergedRow) :=
  setEntry m r.id (vecMergedRow r)

/-- The base entry `mergeHybrid`'s second loop updates: a fresh
keyword-only entry, or the existing one with the keyword snippet
preferred when non-blank. -/
def keyBaseRow (m : List (String × MergedRow)) (r : KeywordRow) : MergedRow :=
  match getEntry m r.id with
  | none => ⟨r.path, r.startLine, r.endLine, r.snippet, 0, 0⟩
  | some c => if trimSpace r.snippet ≠ "" then { c with snippet := r.snippet } else c

/-- One step of `mergeHybrid`'s second loop. -/
def mergeStepKey (m : List (String × MergedRow)) (r : KeywordRow) :
    List (String × MergedRow) :=
  setEntry m r.id { keyBaseRow m r with textScore := r.textScore }

/-- The `byID` map after both loops. -/
def mergedMap (vector : List VectorRow) (keyword : List KeywordRow) :
    List (String × MergedRow) :=
  keyword.foldl mergeStepKey (vector.foldl mergeStepVec [])

/-- The final score assignment of `mergeHybrid`. -/
def scoreRow (vectorWeight textWeight : ℚ) (row : MergedRow) : SearchResult :=
  ⟨row.path, row.startLine, row.endLine,
   vectorWeight * row.vectorScore + textWeight * row.textScore, row.snippet⟩

/-- `mergeHybrid`. -/
def mergeHybrid (vector : List VectorRow) (keyword : List KeywordRow)
    (vectorWeight textWeight : ℚ) : List SearchResult :=
  ((mergedMap vector keyword).map (fun kv => scoreRow vectorWeight textWeight kv.2)).mergeSort
    fun a b => decide (b.score ≤ a.score)

/-- `clampResults`: keep results with score ≥ `minScore` until
`maxResults` entries are kept. -/
def clampResults (results : List SearchResult) (maxResults : Int) (minScore : ℚ) :
    List SearchResult :=
  match results with
  | [] => []
  | r :: rest =>
    if r.score < minScore then clampResults rest maxResults minScore
    else r :: (if maxResults ≤ 1 then [] else clampResults rest (maxResults - 1) minScore)

/-! ### `memory_get` path validation (`IndexManager.ReadFile`)

Unix path semantics: `filepath.ToSlash` is the identity, `filepath.Clean`
and `filepath.Rel` are lexical.  The filesystem (`os.Lstat`/`os.ReadFile`)
is abstracted as a map from absolute paths to file kinds.
-/

def isAbsPath (s : String) : Bool := strStartsWith s "/"

/-- The element-stack pass of `filepath.Clean`. -/
def cleanStack (rooted : Bool) : List String → List String → List String
  | [], acc => acc.reverse
  | e :: rest, acc =>
    if e = "" || e = "." then cleanStack rooted rest acc
    else if e = ".." then
      match acc with
      | top :: acc' =>
        if top = ".." then cleanStack rooted rest (".." :: top :: acc')
        else cleanStack rooted rest acc'
      | [] => if rooted then cleanStack rooted rest [] else cleanStack rooted rest [".."]
    else cleanStack rooted rest (e :: acc)

/-- `filepath.Clean` (Unix). -/
def goClean (path : String) : String :=
  if path = "" then "."
  else
    let rooted := isAbsPath path
    let joined := strJoin "/" (cleanStack rooted (splitChar '/' path) [])
    if rooted then "/" ++ joined
    else if joined = "" then "." else joined

/-- `filepath.Join` of two non-empty parts (joined then cleaned). -/
def goJoin (a b : String) : String := goClean (a ++ "/" ++ b)

/-- Non-empty path elements of a cleaned absolute path. -/
def pathElems (s : String) : List String :=
  (splitChar '/' s).filter (fun e => e ≠ "")

/-- Drop the longest common leading run of two element lists. -/
def dropCommon : List String → List String → List String × List String
  | a :: as_, b :: bs =>
    if a = b then dropCommon as_ bs else (a :: as_, b :: bs)
  | as_, bs => (as_, bs)

/-- `filepath.Rel` restricted to cleaned absolute `base`/`target`, the
only call shape `ReadFile` produces. -/
def goRel (base targ : String) : String :=
  let (bRest, tRest) := dropCommon (pathElems base) (pathElems targ)
  let parts := List.replicate bRest.length ".." ++ tRest
  if parts.isEmpty then "." else strJoin "/" parts

/-- The normalisation `isMemoryPath` performs before comparing:
`ToSlash` (identity on Unix), `TrimSpace`, and stripping one leading
`./`. -/
def memNormalize (rel : String) : String :=
  let n := trimSpace rel
  if strStartsWith n "./" then strDrop n 2 else n

/-- `isMemoryPath`. -/
def isMemoryPath (rel : String) : Bool :=
  memNormalize rel = "MEMORY.md" || memNormalize rel = "memory.md" ||
    strStartsWith (memNormalize rel) "memory/"

/-- What `os.Lstat` can report for a path. -/
inductive FileKind
  | regular
  | symlink
  | dir
  | other
deriving DecidableEq, Repr

/-- The validation pipeline of `IndexManager.ReadFile` (the subsequent
`os.ReadFile` and line slicing are not needed for the checked property):
returns the workspace-relative path that is read on success. -/
def readMemoryFileAux (ws : String) (fs : String → Option FileKind) (abs0 : String) :
    Except String String :=
  let abs := goClean abs0
  let rp := goRel ws abs
  if strStartsWith rp "../" || rp = ".." || !isMemoryPath rp then .error "path required"
  else if !(strEndsWith (strToLower rp) ".md") then .error "path required"
  else
    match fs abs with
    | some .regular => .ok rp
    | _ => .error "path required"

def readMemoryFile (ws : String) (fs : String → Option FileKind) (relPath : String) :
    Except String String :=
  let raw := trimSpace relPath
  if raw = "" then .error "path required"
  else readMemoryFileAux ws fs (if isAbsPath raw then raw else goJoin ws raw)

/-! ### Concrete fixtures used by witnesses and counterexamples -/

/-- An oracle whose every response carries text alongside tool calls. -/
def c4chat : Nat → ChatResult := fun _ => ⟨"partial", [⟨"1", "exec", "{}"⟩]⟩

/-- A payload as the cron tool builds one. -/
def payload0 : Payload := ⟨"agent_turn", "m", false, "", ""⟩

/-- An enabled one-shot `at` job whose time has not yet come. -/
def c8atJob : Job :=
  ⟨"j1", "n", true, ⟨"at", 50, 0, "", ""⟩, payload0, ⟨50, 0, "", ""⟩, 0, 0, false⟩

/-- A disabled `at` job whose time already passed. -/
def c2expiredAtJob : Job :=
  ⟨"j2", "n", false, ⟨"at", 5, 0, "", ""⟩, payload0, ⟨0, 0, "", ""⟩, 0, 0, false⟩

/-- An `every`-minute schedule. -/
def c2everySched : Schedule := ⟨"every", 0, 60000, "", ""⟩

/-- The job `Service.Add` builds for `c2everySched` at time 0 with id `id1`. -/
def c2addedJob : Job :=
  ⟨"id1", "t", true, c2everySched, payload0, ⟨60000, 0, "", ""⟩, 0, 0, false⟩

/-- The parse of `"0 0 15 * *"`: day-of-month 15, day-of-week `*`. -/
def c1sched : CronSchedule := ⟨1, 1, 32768, 8190, 127, false, true⟩

/-- January 16, 1970 (a Friday), midnight. -/
def c1jan16 : Civil := ⟨1970, 1, 16, 0, 0⟩

/-- The parse of `"0 0 31 2 *"`: February 31, which never exists. -/
def c9sched : CronSchedule := ⟨1, 1, 2147483648, 4, 127, false, true⟩

/-- The parse of "* * * * *": all five fields full, both star flags set. -/
def c9star : CronSchedule := ⟨1152921504606846975, 16777215, 4294967294, 8190, 127, true, true⟩

/-- The Unix epoch as a civil time. -/
def epochCivil : Civil := ⟨1970, 1, 1, 0, 0⟩

/-- A vector-only hit used by the hybrid-scoring witness. -/
def c3vrow : VectorRow := ⟨"a", "p1", 1, 2, "sv", 9/10⟩

/-- A keyword-only hit used by the hybrid-scoring witness. -/
def c3krow : KeywordRow := ⟨"b", "p2", 3, 4, "sk", 1/2⟩

/-! ## Theorems

First general lemmas about the embedded helpers, then one theorem per
checked claim (with witnesses and counterexamples as required).
-/

/-! ### Trimming lemmas -/

theorem dropWhile_idem (p : Char → Bool) (l : List Char) :
    (l.dropWhile p).dropWhile p = l.dropWhile p := by
  induction l with
  | nil => rfl
  | cons c cs ih =>
    by_cases h : p c <;> simp [List.dropWhile_cons, h, ih]


theorem dropWhile_of_dropWhile_rev (p : Char → Bool) (A : List Char)
    (hA : A.dropWhile p = A) :
    ((A.reverse.dropWhile p).reverse).dropWhile p = (A.reverse.dropWhile p).reverse := by
  set C := A.reverse.dropWhile p with hC
  obtain ⟨t, ht⟩ : C <:+ A.reverse := List.dropWhile_suffix p
  have hA' : A = C.reverse ++ t.reverse := by
    have := congrArg List.reverse ht
    simpa using this.symm
  have hsplit : (C.reverse ++ t.reverse).dropWhile p =
      (if (C.reverse.dropWhile p).isEmpty then t.reverse.dropWhile p
       else C.reverse.dropWhile p ++ t.reverse) := List.dropWhile_append
  by_cases hemp : (C.reverse.dropWhile p).isEmpty
  · have hlen : C.reverse = [] := by
      have h1 : A.dropWhile p = t.reverse.dropWhile p := by
        rw [hA', hsplit, if_pos hemp]
      have h2 : A = t.reverse.dropWhile p := by rw [← hA]; exact h1
      have h3 : A.length ≤ t.reverse.length := by
        rw [h2]; exact (List.dropWhile_suffix p).length_le
      have h4 : A.length = C.reverse.length + t.reverse.length := by
        rw [hA', List.length_append]
      have : C.reverse.length = 0 := by omega
      exact List.length_eq_zero.mp this
    rw [hlen]; rfl
  · have h1 : C.reverse.dropWhile p ++ t.reverse = C.reverse ++ t.reverse := by
      have := hsplit
      rw [if_neg hemp] at this
      calc C.reverse.dropWhile p ++ t.reverse = (C.reverse ++ t.reverse).dropWhile p := this.symm
        _ = A.dropWhile p := by rw [← hA']
        _ = A := hA
        _ = C.reverse ++ t.reverse := hA'
    exact List.append_cancel_right h1

theorem trimList_idem (l : List Char) : trimList (trimList l) = trimList l := by
  unfold trimList
  set p := isSpaceChar with hp
  set A := l.dropWhile p with hA
  have hAfix : A.dropWhile p = A := dropWhile_idem p l
  have step1 : ((A.reverse.dropWhile p).reverse).dropWhile p = (A.reverse.dropWhile p).reverse :=
    dropWhile_of_dropWhile_rev p A hAfix
  rw [step1, List.reverse_reverse]
  rw [dropWhile_idem p A.reverse]

theorem trimSpace_idem (s : String) : trimSpace (trimSpace s) = trimSpace s := by
  unfold trimSpace
  exact congrArg String.mk (trimList_idem s.data)

/-- C10: With a non-empty allow-list, a sender ID that is empty or
whitespace-only is rejected, and matching is invariant under trimming the
sender ID (the code matches on the trimmed ID). -/
theorem allowlist_trimmed_matching (allowFrom : List String) (senderID : String)
    (hne : allowFrom ≠ []) :
    (trimSpace senderID = "" → Allowed allowFrom senderID = false) ∧
    Allowed allowFrom senderID = Allowed allowFrom (trimSpace senderID) := by
  have hempty : allowFrom.isEmpty = false := by
    cases allowFrom with
    | nil => exact absurd rfl hne
    | cons a as => rfl
  constructor
  · intro hblank
    simp [Allowed, hempty, hblank]
  · simp only [Allowed, hempty, Bool.false_eq_true, if_false, trimSpace_idem]

/-- C10 witness: concrete allow-list and padded sender. -/
theorem allowlist_trimmed_matching_witness :
    Allowed ["alice"] "  alice " = Allowed ["alice"] (trimSpace "  alice ") ∧
    Allowed ["a"] "   " = false :=
  ⟨(allowlist_trimmed_matching ["alice"] "  alice " (by decide)).2,
   (allowlist_trimmed_matching ["a"] "   " (by decide)).1 (by decide)⟩

/-- C7 (amended): the keyword score of an FTS candidate is `1/(1+rank)`
only for non-negative ranks; negative ranks (the common case for SQLite
bm25, which reports better matches as more negative) are clamped to 0,
yielding score 1. -/
theorem bm25_score_formula (id path : String) (startLine endLine : Int)
    (snippet : String) (rank : ℚ) :
    (0 ≤ rank →
      (keywordCandidate id path startLine endLine snippet rank).textScore = 1 / (1 + rank)) ∧
    (rank < 0 →
      (keywordCandidate id path startLine endLine snippet rank).textScore = 1) := by
  constructor
  · intro h
    simp only [keywordCandidate, bm25RankToScore, if_neg (not_lt.mpr h)]
  · intro h
    simp only [keywordCandidate, bm25RankToScore, if_pos h]
    norm_num

/-- C7 witness: rank 3 scores 1/4; rank −1/2 scores 1. -/
theorem bm25_score_formula_witness :
    (keywordCandidate "c" "p" 1 2 "t" 3).textScore = 1 / (1 + 3) ∧
    (keywordCandidate "c" "p" 1 2 "t" (-(1 : ℚ)/2)).textScore = 1 :=
  ⟨(bm25_score_formula "c" "p" 1 2 "t" 3).1 (by norm_num),
   (bm25_score_formula "c" "p" 1 2 "t" (-(1 : ℚ)/2)).2 (by norm_num)⟩

/-- C7 counterexample: at rank −1/2 the code scores 1, while
`1/(1+rank)` is 2. -/
theorem bm25_negative_rank_cex :
    (keywordCandidate "c" "p" 1 2 "t" (-(1 : ℚ)/2)).textScore = 1 ∧
    (1 : ℚ) / (1 + (-(1 : ℚ)/2)) = 2 ∧ (1 : ℚ) ≠ 2 := by
  refine ⟨?_, by norm_num, by norm_num⟩
  simp only [keywordCandidate, bm25RankToScore]
  norm_num

/-- The loop never retains text while every response carries tool calls. -/
theorem processLoop_all_toolCalls (chat : Nat → ChatResult) :
    ∀ (n i : Nat), (∀ k, i ≤ k → k < i + n → hasToolCalls (chat k) = true) →
      processLoop chat n i = "" := by
  intro n
  induction n with
  | zero => intro i _; rfl
  | succ m ih =>
    intro i h
    have hcur : hasToolCalls (chat i) = true := h i (Nat.le_refl i) (by omega)
    simp only [processLoop, hcur, if_pos]
    exact ih (i + 1) (fun k hk1 hk2 => h k (by omega) (by omega))

/-- C4 (amended): with the defaulted bound (20 when the option is ≤ 0),
exhausting every iteration on tool-call responses always yields the
sentinel `"(no response)"`; text carried alongside tool calls is never
retained. -/
theorem loop_exhaustion_sentinel (chat : Nat → ChatResult) (optIters : Int)
    (hopt : optIters ≤ 0)
    (hcalls : ∀ i : Nat, i < (effectiveMaxIters optIters).toNat →
      hasToolCalls (chat i) = true) :
    effectiveMaxIters optIters = 20 ∧
    processFinal chat (effectiveMaxIters optIters).toNat = "(no response)" := by
  have hmi : effectiveMaxIters optIters = 20 := by
    simp only [effectiveMaxIters, if_pos hopt]
  refine ⟨hmi, ?_⟩
  have hloop : processLoop chat (effectiveMaxIters optIters).toNat 0 = "" := by
    apply processLoop_all_toolCalls
    intro k hk1 hk2
    exact hcalls k (by omega)
  simp only [processFinal, hloop]
  rfl

/-- C4 witness: the all-tool-calls oracle at option 0. -/
theorem loop_exhaustion_sentinel_witness :
    effectiveMaxIters 0 = 20 ∧
    processFinal c4chat (effectiveMaxIters 0).toNat = "(no response)" :=
  loop_exhaustion_sentinel c4chat 0 (by decide) (fun _ _ => rfl)

/-- C4 counterexample: every response carries the text `"partial"` with a
tool call; on exhaustion the code returns the sentinel, not that text. -/
theorem loop_exhaustion_discards_text_cex :
    processFinal c4chat 20 = "(no response)" ∧
    (c4chat 19).content = "partial" ∧
    (∀ i : Nat, i < 20 → hasToolCalls (c4chat i) = true) ∧
    "(no response)" ≠ "partial" := by
  refine ⟨by decide, rfl, fun i _ => rfl, by decide⟩

/-- C5 (amended): requesting the current session's own (channel, chat_id)
always fails without publishing; any other non-empty target is published —
provided the content is non-blank (blank content errors out without
publishing, which the original claim overlooks). -/
theorem message_tool_routing (tctx : ToolCtx) (content : String) :
    ((messageTool true tctx content tctx.channel tctx.chatID).1.isOk = false ∧
     (messageTool true tctx content tctx.channel tctx.chatID).2 = []) ∧
    (∀ ch cid : String, trimSpace ch ≠ "" → trimSpace cid ≠ "" →
      trimSpace content ≠ "" →
      ¬(trimSpace ch = trimSpace tctx.channel ∧ trimSpace cid = trimSpace tctx.chatID) →
      (messageTool true tctx content ch cid).1 =
        .ok ("Message sent to " ++ trimSpace ch ++ ":" ++ trimSpace cid) ∧
      (messageTool true tctx content ch cid).2 =
        [⟨trimSpace ch, trimSpace cid, trimSpace content⟩]) := by
  constructor
  · by_cases h1 : trimSpace tctx.channel = ""
    · simp [messageTool, h1, Except.isOk, Except.toBool]
    · by_cases h2 : trimSpace tctx.chatID = ""
      · simp [messageTool, h1, h2, Except.isOk, Except.toBool]
      · simp [messageTool, h1, h2, Except.isOk, Except.toBool]
  · intro ch cid hch hcid hcontent hneq
    by_cases h1 : trimSpace tctx.channel = ""
    · simp [messageTool, hch, hcid, hcontent, h1]
    · by_cases h2 : trimSpace tctx.chatID = ""
      · simp [messageTool, hch, hcid, hcontent, h1, h2]
      · simp [messageTool, hch, hcid, hcontent, h1, h2, hneq]

/-- C5 witness: a concrete session, forbidden self-target and allowed
cross-target. -/
theorem message_tool_routing_witness :
    ((messageTool true ⟨"discord", "1", ""⟩ "hi" "discord" "1").2 = []) ∧
    ((messageTool true ⟨"discord", "1", ""⟩ "hi" "slack" "2").2 =
      [⟨"slack", "2", "hi"⟩]) :=
  ⟨(message_tool_routing ⟨"discord", "1", ""⟩ "hi").1.2,
   by
    have h := (message_tool_routing ⟨"discord", "1", ""⟩ "hi").2 "slack" "2"
      (by decide) (by decide) (by decide) (by decide)
    exact h.2⟩

/-- C5 counterexample: a non-empty target different from the session, but
blank content: the tool errors and publishes nothing, contradicting the
claim that every other non-empty target is published. -/
theorem message_tool_blank_content_cex :
    trimSpace "slack" ≠ "" ∧ trimSpace "2" ≠ "" ∧
    trimSpace "slack" ≠ trimSpace "discord" ∧
    messageTool true ⟨"discord", "1", ""⟩ "   " "slack" "2" =
      (.error "content is empty", []) := by
  refine ⟨by decide, by decide, by decide, by decide⟩

/-- C8 (amended): for a repeating job (kind `every` or `cron`), a handler
error is recorded in `last_status`/`last_error`, the job stays in the
store with `enabled` unchanged, and its next run is recomputed.  (A
one-shot `at` job is disabled or deleted even on error — see the
counterexample.) -/
theorem cron_handler_error_recorded (pre post : List Job) (j : Job)
    (start upd : Int) (e : String)
    (hfresh : ∀ k ∈ pre, k.id ≠ j.id) (hkind : j.schedule.kind ≠ "at") :
    executeUpdate (pre ++ j :: post) j.id start upd (some e) =
      pre ++ ({ j with
        state := { nextRunAtMS := computeNextRunMS j.schedule upd,
                   lastRunAtMS := start, lastStatus := "error", lastError := e }
        updatedAtMS := upd } : Job) :: post := by
  induction pre with
  | nil =>
    simp only [List.nil_append, executeUpdate, if_pos rfl]
    rw [if_neg hkind]
    simp
  | cons k ks ih =>
    have hk : k.id ≠ j.id := hfresh k (List.mem_cons_self k ks)
    simp only [List.cons_append, executeUpdate, if_neg hk]
    exact congrArg (List.cons k) (ih (fun k' hk' => hfresh k' (List.mem_cons_of_mem k hk')))

/-- C8 witness: a concrete `every` job whose handler failed. -/
theorem cron_handler_error_recorded_witness :
    executeUpdate [c2addedJob] "id1" 60 61 (some "boom") =
      [{ c2addedJob with
        state := { nextRunAtMS := computeNextRunMS c2addedJob.schedule 61,
                   lastRunAtMS := 60, lastStatus := "error", lastError := "boom" }
        updatedAtMS := 61 }] := by
  have h := cron_handler_error_recorded [] [] c2addedJob 60 61 "boom"
    (by intro k hk; cases hk) (by decide)
  simpa using h

/-- C8 counterexample: an enabled one-shot `at` job whose handler errors
is disabled by that execution (its error is recorded, but `enabled` flips
to false), refuting the claim for `at` jobs. -/
theorem cron_at_job_error_disables_cex :
    c8atJob.enabled = true ∧ c8atJob.schedule.kind = "at" ∧
    ((executeUpdate [c8atJob] "j1" 60 61 (some "boom")).head?.map
      (fun j => (j.enabled, j.state.lastStatus, j.state.lastError))) =
      some (false, "error", "boom") := by
  refine ⟨rfl, rfl, by decide⟩

/-- C2 (amended): a successful `Add` appends a job that is enabled with a
strictly positive `next_run_ms` (the `nextRun ≤ 0` guard enforces the
invariant there); the other operations — `Toggle`, execution, the startup
recompute — assign `computeNextRunMS` unguarded and can leave an enabled
job with `next_run_ms ≤ 0` (see the counterexample). -/
theorem cron_add_nextRun_positive (jobs : List Job) (name : String)
    (sched : Schedule) (payload : Payload) (now : Int) (newId : String)
    (j : Job) (jobs' : List Job)
    (h : addJob jobs name sched payload now newId = .ok (j, jobs')) :
    j.enabled = true ∧ j.state.nextRunAtMS > 0 ∧ jobs' = jobs ++ [j] := by
  unfold addJob at h
  rcases hv : validateSchedule sched now with e | u
  · rw [hv] at h; cases h
  · rw [hv] at h
    simp only at h
    by_cases hpos : computeNextRunMS sched now ≤ 0
    · rw [if_pos hpos] at h; cases h
    · rw [if_neg hpos] at h
      injection h with h'
      injection h' with h1 h2
      subst h1
      subst h2
      refine ⟨rfl, ?_, rfl⟩
      simpa using lt_of_not_le hpos

/-- C2 witness: adding an every-minute job at time 0. -/
theorem cron_add_nextRun_positive_witness :
    c2addedJob.enabled = true ∧ c2addedJob.state.nextRunAtMS > 0 ∧
    ([c2addedJob] : List Job) = [] ++ [c2addedJob] :=
  cron_add_nextRun_positive [] "t" c2everySched payload0 0 "id1" c2addedJob
    [c2addedJob] (by decide)

/-- C2 counterexample: re-enabling (`Toggle`) a one-shot `at` job whose
time already passed leaves it enabled with `next_run_ms = 0`, violating
`enabled ⇒ next_run_ms > 0`. -/
theorem cron_toggle_enabled_nextRun_cex :
    ((toggleJob [c2expiredAtJob] "j2" false 10).1.head?.map
      (fun j => (j.enabled, j.state.nextRunAtMS))) = some (true, 0) ∧
    ¬ ((0 : Int) > 0) := by
  refine ⟨by decide, by decide⟩

theorem readMemoryFileAux_ok (ws : String) (fs : String → Option FileKind)
    (abs0 rp : String) (h : readMemoryFileAux ws fs abs0 = .ok rp) :
    rp = goRel ws (goClean abs0) ∧
    (memNormalize rp = "MEMORY.md" ∨ memNormalize rp = "memory.md" ∨
      strStartsWith (memNormalize rp) "memory/" = true) ∧
    strEndsWith (strToLower rp) ".md" = true ∧
    strStartsWith rp "../" = false ∧ rp ≠ ".." ∧
    fs (goClean abs0) = some .regular := by
  unfold readMemoryFileAux at h
  dsimp only at h
  split at h
  · cases h
  · split at h
    · cases h
    · rename_i hval hsuf
      split at h
      · rename_i hfs
        injection h with h'
        subst h'
        simp only [Bool.or_eq_true, decide_eq_true_eq, Bool.not_eq_true', not_or,
          Bool.not_eq_true, Bool.not_eq_false] at hval hsuf
        obtain ⟨⟨hdots, hdd⟩, hmem⟩ := hval
        refine ⟨rfl, ?_, ?_, hdots, hdd, hfs⟩
        · unfold isMemoryPath at hmem
          simp only [Bool.or_eq_true, decide_eq_true_eq] at hmem
          exact or_assoc.mp hmem
        · simpa using hsuf
      all_goals cases h

/-- C6 (amended): `memory_get` succeeds only for paths whose
workspace-relative resolution does not escape (`../` forms rejected) and
whose *whitespace-trimmed, `./`-stripped* relative form is `MEMORY.md`,
`memory.md`, or under `memory/`, whose lowercased form ends in `.md`, and
which `Lstat` reports as a regular file (so not a symlink); in particular
`memory_get("../secret.md")` fails.  (The normalisation is the needed
weakening: a file under a directory literally named `" memory"` trims to
the `memory/` form and is accepted — see the counterexample.) -/
theorem memory_get_path_validation :
    (∀ (ws : String) (fs : String → Option FileKind) (p rp : String),
      readMemoryFile ws fs p = .ok rp →
      (memNormalize rp = "MEMORY.md" ∨ memNormalize rp = "memory.md" ∨
        strStartsWith (memNormalize rp) "memory/" = true) ∧
      strEndsWith (strToLower rp) ".md" = true ∧
      strStartsWith rp "../" = false ∧ rp ≠ ".." ∧
      fs (goClean (if isAbsPath (trimSpace p) then trimSpace p
                   else goJoin ws (trimSpace p))) = some .regular) ∧
    (∀ fs : String → Option FileKind,
      readMemoryFile "/ws" fs "../secret.md" = .error "path required") := by
  constructor
  · intro ws fs p rp h
    unfold readMemoryFile at h
    dsimp only at h
    split at h
    · cases h
    · exact (readMemoryFileAux_ok ws fs _ rp h).2
  · intro fs
    rfl

/-- C6 witness: reading `MEMORY.md` in a filesystem where it is a regular
file satisfies every validated property. -/
theorem memory_get_path_validation_witness :
    (memNormalize "MEMORY.md" = "MEMORY.md" ∨ memNormalize "MEMORY.md" = "memory.md" ∨
      strStartsWith (memNormalize "MEMORY.md") "memory/" = true) ∧
    strEndsWith (strToLower "MEMORY.md") ".md" = true ∧
    strStartsWith "MEMORY.md" "../" = false ∧ ("MEMORY.md" : String) ≠ ".." ∧
    (fun s => if s = "/ws/MEMORY.md" then some FileKind.regular else none)
      (goClean (if isAbsPath (trimSpace "MEMORY.md") then trimSpace "MEMORY.md"
                else goJoin "/ws" (trimSpace "MEMORY.md"))) = some .regular :=
  memory_get_path_validation.1 "/ws"
    (fun s => if s = "/ws/MEMORY.md" then some FileKind.regular else none)
    "MEMORY.md" "MEMORY.md" (by decide)

/-- C6 counterexample: a regular file under a directory named `" memory"`
(leading space) passes validation because `isMemoryPath` trims before
comparing, although its relative path is neither `MEMORY.md`, `memory.md`,
nor under `memory/`. -/
theorem memory_get_space_dir_cex :
    readMemoryFile "/ws" (fun _ => some FileKind.regular) "/ws/ memory/x.md" =
      .ok " memory/x.md" ∧
    (" memory/x.md" : String) ≠ "MEMORY.md" ∧
    (" memory/x.md" : String) ≠ "memory.md" ∧
    strStartsWith " memory/x.md" "memory/" = false := by
  refine ⟨by decide, by decide, by decide, by decide⟩

/-! ### Hybrid scorer lemmas -/

theorem getEntry_mem (m : List (String × MergedRow)) (k : String) (v : MergedRow)
    (h : getEntry m k = some v) : (k, v) ∈ m := by
  induction m with
  | nil => cases h
  | cons kv rest ih =>
    unfold getEntry at h
    by_cases hk : kv.1 = k
    · rw [if_pos hk] at h
      injection h with h'
      subst h'
      have : kv = (k, kv.2) := by
        rw [← hk]
      rw [← this]
      exact List.mem_cons_self kv rest
    · rw [if_neg hk] at h
      exact List.mem_cons_of_mem _ (ih h)

theorem getEntry_setEntry_self (m : List (String × MergedRow)) (k : String) (v : MergedRow) :
    getEntry (setEntry m k v) k = some v := by
  induction m with
  | nil => simp [setEntry, getEntry]
  | cons kv rest ih =>
    unfold setEntry
    by_cases hk : kv.1 = k
    · rw [if_pos hk]
      simp [getEntry]
    · rw [if_neg hk]
      unfold getEntry
      rw [if_neg hk]
      exact ih

theorem getEntry_setEntry_ne (m : List (String × MergedRow)) (k k' : String) (v : MergedRow)
    (h : k' ≠ k) : getEntry (setEntry m k v) k' = getEntry m k' := by
  induction m with
  | nil =>
    simp only [setEntry, getEntry]
    rw [if_neg (fun hh : k = k' => h hh.symm)]
  | cons kv rest ih =>
    unfold setEntry
    by_cases hk : kv.1 = k
    · rw [if_pos hk]
      unfold getEntry
      rw [if_neg (fun hh : k = k' => h hh.symm), if_neg (by rw [hk]; exact fun hh => h hh.symm)]
    · rw [if_neg hk]
      unfold getEntry
      by_cases hk2 : kv.1 = k'
      · rw [if_pos hk2, if_pos hk2]
      · rw [if_neg hk2, if_neg hk2]
        exact ih

-- untouched lemmas for folds
theorem getEntry_foldVec_untouched (vector : List VectorRow)
    (m0 : List (String × MergedRow)) (id : String)
    (h : ∀ v ∈ vector, v.id ≠ id) :
    getEntry (vector.foldl mergeStepVec m0) id = getEntry m0 id := by
  induction vector generalizing m0 with
  | nil => rfl
  | cons v rest ih =>
    simp only [List.foldl_cons]
    rw [ih _ (fun w hw => h w (List.mem_cons_of_mem v hw))]
    exact getEntry_setEntry_ne m0 v.id id (vecMergedRow v)
      (fun hh => h v (List.mem_cons_self v rest) hh.symm)

theorem getEntry_foldKey_untouched (keyword : List KeywordRow)
    (m0 : List (String × MergedRow)) (id : String)
    (h : ∀ k ∈ keyword, k.id ≠ id) :
    getEntry (keyword.foldl mergeStepKey m0) id = getEntry m0 id := by
  induction keyword generalizing m0 with
  | nil => rfl
  | cons k rest ih =>
    simp only [List.foldl_cons]
    rw [ih _ (fun w hw => h w (List.mem_cons_of_mem k hw))]
    exact getEntry_setEntry_ne m0 k.id id _
      (fun hh => h k (List.mem_cons_self k rest) hh.symm)

theorem getEntry_foldVec_found (pre post : List VectorRow) (v : VectorRow)
    (m0 : List (String × MergedRow))
    (hpost : ∀ w ∈ post, w.id ≠ v.id) :
    getEntry ((pre ++ v :: post).foldl mergeStepVec m0) v.id = some (vecMergedRow v) := by
  rw [List.foldl_append]
  simp only [List.foldl_cons]
  rw [getEntry_foldVec_untouched post _ v.id hpost]
  exact getEntry_setEntry_self _ v.id _

theorem getEntry_foldKey_found (pre post : List KeywordRow) (k : KeywordRow)
    (m0 : List (String × MergedRow))
    (hpost : ∀ w ∈ post, w.id ≠ k.id) :
    getEntry ((pre ++ k :: post).foldl mergeStepKey m0) k.id =
      some { keyBaseRow (pre.foldl mergeStepKey m0) k with textScore := k.textScore } := by
  rw [List.foldl_append]
  simp only [List.foldl_cons]
  rw [getEntry_foldKey_untouched post _ k.id hpost]
  exact getEntry_setEntry_self _ k.id _

theorem mem_mergeHybrid_of_getEntry (vector : List VectorRow) (keyword : List KeywordRow)
    (vw tw : ℚ) (id : String) (row : MergedRow)
    (h : getEntry (mergedMap vector keyword) id = some row) :
    scoreRow vw tw row ∈ mergeHybrid vector keyword vw tw := by
  unfold mergeHybrid
  rw [List.mem_mergeSort]
  exact List.mem_map.mpr ⟨(id, row), getEntry_mem _ _ _ h, rfl⟩

theorem getEntry_mergedMap_vectorOnly (vector : List VectorRow) (keyword : List KeywordRow)
    (v : VectorRow) (hv : v ∈ vector)
    (hdv : vector.Pairwise (fun a b => a.id ≠ b.id))
    (hnk : ∀ k ∈ keyword, k.id ≠ v.id) :
    getEntry (mergedMap vector keyword) v.id = some (vecMergedRow v) := by
  obtain ⟨pre, post, rfl⟩ := List.append_of_mem hv
  have hpost : ∀ w ∈ post, w.id ≠ v.id := by
    have := (List.pairwise_append.mp hdv).2.1
    intro w hw
    exact fun hh => (List.rel_of_pairwise_cons this hw) hh.symm
  unfold mergedMap
  rw [getEntry_foldKey_untouched _ _ _ hnk]
  exact getEntry_foldVec_found pre post v [] hpost

theorem getEntry_mergedMap_keywordOnly (vector : List VectorRow) (keyword : List KeywordRow)
    (k : KeywordRow) (hk : k ∈ keyword)
    (hdk : keyword.Pairwise (fun a b => a.id ≠ b.id))
    (hnv : ∀ v ∈ vector, v.id ≠ k.id) :
    getEntry (mergedMap vector keyword) k.id =
      some ⟨k.path, k.startLine, k.endLine, k.snippet, 0, k.textScore⟩ := by
  obtain ⟨pre, post, rfl⟩ := List.append_of_mem hk
  have hsplit := List.pairwise_append.mp hdk
  have hpost : ∀ w ∈ post, w.id ≠ k.id := by
    intro w hw
    exact fun hh => (List.rel_of_pairwise_cons hsplit.2.1 hw) hh.symm
  have hpre : ∀ w ∈ pre, w.id ≠ k.id := by
    intro w hw
    exact hsplit.2.2 w hw k (List.mem_cons_self k post)
  unfold mergedMap
  rw [getEntry_foldKey_found pre post k _ hpost]
  have hbase : keyBaseRow (pre.foldl mergeStepKey (vector.foldl mergeStepVec [])) k =
      ⟨k.path, k.startLine, k.endLine, k.snippet, 0, 0⟩ := by
    unfold keyBaseRow
    rw [getEntry_foldKey_untouched _ _ _ hpre, getEntry_foldVec_untouched _ _ _ hnv]
    rfl
  rw [hbase]

theorem getEntry_mergedMap_both (vector : List VectorRow) (keyword : List KeywordRow)
    (v : VectorRow) (k : KeywordRow) (hv : v ∈ vector) (hk : k ∈ keyword)
    (hdv : vector.Pairwise (fun a b => a.id ≠ b.id))
    (hdk : keyword.Pairwise (fun a b => a.id ≠ b.id))
    (hid : v.id = k.id) :
    ∃ row : MergedRow, getEntry (mergedMap vector keyword) k.id = some row ∧
      row.vectorScore = v.vectorScore ∧ row.textScore = k.textScore := by
  obtain ⟨preK, postK, rfl⟩ := List.append_of_mem hk
  have hsplitK := List.pairwise_append.mp hdk
  have hpostK : ∀ w ∈ postK, w.id ≠ k.id := by
    intro w hw
    exact fun hh => (List.rel_of_pairwise_cons hsplitK.2.1 hw) hh.symm
  have hpreK : ∀ w ∈ preK, w.id ≠ k.id := by
    intro w hw
    exact hsplitK.2.2 w hw k (List.mem_cons_self k postK)
  obtain ⟨preV, postV, rfl⟩ := List.append_of_mem hv
  have hpostV : ∀ w ∈ postV, w.id ≠ v.id := by
    have := (List.pairwise_append.mp hdv).2.1
    intro w hw
    exact fun hh => (List.rel_of_pairwise_cons this hw) hh.symm
  unfold mergedMap
  rw [getEntry_foldKey_found preK postK k _ hpostK]
  have hbyid1 : getEntry (preK.foldl mergeStepKey
      ((preV ++ v :: postV).foldl mergeStepVec [])) k.id = some (vecMergedRow v) := by
    rw [getEntry_foldKey_untouched _ _ _ hpreK, ← hid]
    exact getEntry_foldVec_found preV postV v [] hpostV
  refine ⟨_, rfl, ?_, ?_⟩
  · unfold keyBaseRow
    rw [hbyid1]
    by_cases hsnip : trimSpace k.snippet ≠ "" <;> simp [hsnip, vecMergedRow]
  · rfl

theorem mergeHybrid_sorted (vector : List VectorRow) (keyword : List KeywordRow)
    (vw tw : ℚ) :
    (mergeHybrid vector keyword vw tw).Pairwise (fun a b => b.score ≤ a.score) := by
  unfold mergeHybrid
  have h := @List.sorted_mergeSort SearchResult
    (fun a b : SearchResult => decide (b.score ≤ a.score))
    (fun a b c hab hbc => by
      simp only [decide_eq_true_eq] at *
      exact le_trans hbc hab)
    (fun a b => by
      simp only [Bool.or_eq_true, decide_eq_true_eq]
      exact (le_total b.score a.score))
    ((mergedMap vector keyword).map (fun kv => scoreRow vw tw kv.2))
  exact h.imp (fun hab => of_decide_eq_true hab)

theorem clampResults_eq_filter_take (l : List SearchResult) (maxR : Int) (minS : ℚ)
    (h : 1 ≤ maxR) :
    clampResults l maxR minS =
      (l.filter (fun r => !decide (r.score < minS))).take maxR.toNat := by
  induction l generalizing maxR with
  | nil => simp [clampResults]
  | cons r rest ih =>
    unfold clampResults
    by_cases hs : r.score < minS
    · rw [if_pos hs, List.filter_cons_of_neg (by simp [hs])]
      exact ih maxR h
    · rw [if_neg hs, List.filter_cons_of_pos (by simp [hs])]
      have htn : maxR.toNat = (maxR.toNat - 1) + 1 := by omega
      rw [htn, List.take_succ_cons]
      by_cases hone : maxR ≤ 1
      · have hz : maxR.toNat - 1 = 0 := by omega
        rw [if_pos hone, hz, List.take_zero]
      · have harg : (maxR - 1).toNat = maxR.toNat - 1 := by omega
        rw [if_neg hone, ih (maxR - 1) (by omega), harg]

theorem resolveWeights_sum (vw tw : ℚ)
    (h : 0 < clampFloat vw 0 1 + clampFloat tw 0 1) :
    (resolveWeights vw tw).1 + (resolveWeights vw tw).2 = 1 := by
  unfold resolveWeights
  simp only [if_pos h]
  rw [div_add_div_same, div_self (ne_of_gt h)]

/-- C3 (amended): merged scores are `vw·vector + tw·text` with the
missing side zero (vector-only, keyword-only, and both-found cases, for
candidate lists with distinct chunk ids); results are sorted by
descending score and `clampResults` filters by `minScore` then truncates
to `maxResults`; the clamped weights are renormalised to sum to 1
whenever their clamped sum is positive — with both weights configured to
0 they stay 0 (see the counterexample). -/
theorem memory_hybrid_scoring :
    (∀ vw tw : ℚ, 0 < clampFloat vw 0 1 + clampFloat tw 0 1 →
      (resolveWeights vw tw).1 + (resolveWeights vw tw).2 = 1) ∧
    (∀ (vector : List VectorRow) (keyword : List KeywordRow) (vw tw : ℚ),
      vector.Pairwise (fun a b => a.id ≠ b.id) →
      keyword.Pairwise (fun a b => a.id ≠ b.id) →
      (∀ v ∈ vector, (∀ k ∈ keyword, k.id ≠ v.id) →
        ∃ r ∈ mergeHybrid vector keyword vw tw,
          r.path = v.path ∧ r.score = vw * v.vectorScore) ∧
      (∀ k ∈ keyword, (∀ v ∈ vector, v.id ≠ k.id) →
        ∃ r ∈ mergeHybrid vector keyword vw tw,
          r.path = k.path ∧ r.score = tw * k.textScore) ∧
      (∀ v ∈ vector, ∀ k ∈ keyword, v.id = k.id →
        ∃ r ∈ mergeHybrid vector keyword vw tw,
          r.score = vw * v.vectorScore + tw * k.textScore)) ∧
    (∀ (vector : List VectorRow) (keyword : List KeywordRow) (vw tw : ℚ),
      (mergeHybrid vector keyword vw tw).Pairwise (fun a b => b.score ≤ a.score)) ∧
    (∀ (l : List SearchResult) (maxR : Int) (minS : ℚ), 1 ≤ maxR →
      clampResults l maxR minS =
        (l.filter (fun r => !decide (r.score < minS))).take maxR.toNat) := by
  refine ⟨resolveWeights_sum, ?_, mergeHybrid_sorted, clampResults_eq_filter_take⟩
  intro vector keyword vw tw hdv hdk
  refine ⟨?_, ?_, ?_⟩
  · intro v hv hnk
    refine ⟨scoreRow vw tw (vecMergedRow v),
      mem_mergeHybrid_of_getEntry vector keyword vw tw v.id _
        (getEntry_mergedMap_vectorOnly vector keyword v hv hdv hnk), rfl, ?_⟩
    simp [scoreRow, vecMergedRow]
  · intro k hk hnv
    refine ⟨scoreRow vw tw ⟨k.path, k.startLine, k.endLine, k.snippet, 0, k.textScore⟩,
      mem_mergeHybrid_of_getEntry vector keyword vw tw k.id _
        (getEntry_mergedMap_keywordOnly vector keyword k hk hdk hnv), rfl, ?_⟩
    simp [scoreRow]
  · intro v hv k hk hid
    obtain ⟨row, hrow, hvs, hts⟩ :=
      getEntry_mergedMap_both vector keyword v k hv hk hdv hdk hid
    exact ⟨scoreRow vw tw row,
      mem_mergeHybrid_of_getEntry vector keyword vw tw k.id row hrow,
      by simp [scoreRow, hvs, hts]⟩

/-- C3 witness: concrete weights 0.7/0.3, one vector-only and one
keyword-only candidate, and a concrete clamp. -/
theorem memory_hybrid_scoring_witness :
    ((resolveWeights (7/10) (3/10)).1 + (resolveWeights (7/10) (3/10)).2 = 1) ∧
    (∃ r ∈ mergeHybrid [c3vrow] [c3krow] (7/10) (3/10),
      r.path = c3vrow.path ∧ r.score = (7/10) * c3vrow.vectorScore) ∧
    (∃ r ∈ mergeHybrid [c3vrow] [c3krow] (7/10) (3/10),
      r.path = c3krow.path ∧ r.score = (3/10) * c3krow.textScore) ∧
    (mergeHybrid [c3vrow] [c3krow] (7/10) (3/10)).Pairwise
      (fun a b => b.score ≤ a.score) ∧
    clampResults [⟨"p", 1, 2, 9/10, "s"⟩] 2 (3/10) =
      (([⟨"p", 1, 2, 9/10, "s"⟩] : List SearchResult).filter
        (fun r => !decide (r.score < (3/10 : ℚ)))).take (2 : Int).toNat := by
  refine ⟨memory_hybrid_scoring.1 (7/10) (3/10) (by norm_num [clampFloat]), ?_, ?_,
    memory_hybrid_scoring.2.2.1 [c3vrow] [c3krow] (7/10) (3/10),
    memory_hybrid_scoring.2.2.2 _ 2 (3/10) (by norm_num)⟩
  · exact (memory_hybrid_scoring.2.1 [c3vrow] [c3krow] (7/10) (3/10)
      (by simp) (by simp)).1 c3vrow (by simp)
      (by intro k hk; simp at hk; subst hk; decide)
  · exact (memory_hybrid_scoring.2.1 [c3vrow] [c3krow] (7/10) (3/10)
      (by simp) (by simp)).2.1 c3krow (by simp)
      (by intro v hv; simp at hv; subst hv; decide)

/-- C3 counterexample: with both hybrid weights configured to 0 the
resolved weights sum to 0, not 1. -/
theorem memory_hybrid_weights_cex :
    clampFloat 0 0 1 + clampFloat 0 0 1 = 0 ∧
    (resolveWeights 0 0).1 + (resolveWeights 0 0).2 = 0 ∧ (0 : ℚ) ≠ 1 := by
  refine ⟨by norm_num [clampFloat], by norm_num [resolveWeights, clampFloat], by norm_num⟩

/-! ### Cron parser star-coverage lemmas -/

theorem buildBitsAux_covers (isDow : Bool) (endv : Nat) :
    ∀ (fuel v d : Nat), v ≤ d → d ≤ endv → (isDow = false ∨ d ≠ 7) →
      endv + 1 - v ≤ fuel →
      (buildBitsAux isDow endv 1 fuel v).testBit d = true := by
  intro fuel
  induction fuel with
  | zero => intro v d h1 h2 _ h4; omega
  | succ f ih =>
    intro v d h1 h2 h3 h4
    unfold buildBitsAux
    rw [if_pos (by omega)]
    rw [Nat.testBit_or]
    by_cases hv : v = d
    · subst hv
      have hidx : (if isDow && v == 7 then 0 else v) = v := by
        rcases h3 with h3 | h3
        · simp [h3]
        · simp [Nat.beq_eq_true_eq, h3]
      rw [hidx]
      have : (1 <<< v).testBit v = true := by
        rw [Nat.shiftLeft_eq, one_mul, Nat.testBit_two_pow_self]
      rw [this]
      rfl
    · have := ih (v + 1) d (by omega) h2 h3 (by omega)
      rw [this]
      simp

/-- Coverage of a full bit range. -/
def CoversRange (bits : Nat) (bmin bmax : Nat) (isDow : Bool) : Prop :=
  ∀ d : Nat, bmin ≤ d → d ≤ bmax → (isDow = false ∨ d ≠ 7) → bits.testBit d = true

theorem buildBits_covers (bmin bmax : Nat) (isDow : Bool) (hmax : bmax ≤ 63) :
    CoversRange (buildBits bmin bmax 1 isDow) bmin bmax isDow := by
  intro d h1 h2 h3
  unfold buildBits
  rw [if_neg (by omega)]
  exact buildBitsAux_covers isDow bmax 128 bmin d h1 h2 h3 (by omega)

theorem cronSegmentRange_star (base : String) (step : Int) (hasStep : Bool)
    (bounds : CronBounds) (st sp : Int)
    (h : cronSegmentRange base step hasStep bounds = .ok (st, sp, true)) :
    st = bounds.min ∧ sp = bounds.max ∧ step = 1 := by
  unfold cronSegmentRange at h
  split at h
  · injection h with h'
    injection h' with h1 h'
    injection h' with h2 h3
    subst h1; subst h2
    refine ⟨rfl, rfl, ?_⟩
    exact eq_of_beq h3
  · split at h
    · split at h
      · rename_i left right heq
        rcases hv1 : parseCronValue left bounds with e | v1 <;> rw [hv1] at h
        · cases h
        · rcases hv2 : parseCronValue right bounds with e | v2 <;> rw [hv2] at h
          · cases h
          · simp only [bind, Except.bind, pure, Except.pure] at h
            injection h with h'
            injection h' with h1 h'
            injection h' with h2 h3
            cases h3
      · cases h
    · rcases hv : parseCronValue base bounds with e | v <;> rw [hv] at h
      · cases h
      · simp only [bind, Except.bind, pure, Except.pure] at h
        injection h with h'
        injection h' with h1 h'
        injection h' with h2 h3
        cases h3

theorem parseCronSegment_star (seg : String) (bounds : CronBounds) (isDow : Bool)
    (bits : Nat) (h : parseCronSegment seg bounds isDow = .ok (bits, true)) :
    bits = buildBits bounds.min.toNat bounds.max.toNat 1 isDow := by
  unfold parseCronSegment at h
  rcases hstep : cronSegmentStep seg with e | ⟨base, step, hasStep⟩ <;> rw [hstep] at h
  · cases h
  · simp only [bind, Except.bind] at h
    rcases hrange : cronSegmentRange base step hasStep bounds with e | ⟨st, sp, star⟩ <;>
      rw [hrange] at h
    · cases h
    · dsimp only at h
      split at h
      · cases h
      · split at h
        · cases h
        · split at h
          · cases h
          · injection h with h'
            injection h' with h1 h2
            subst h1
            subst h2
            obtain ⟨hst, hsp, hstep1⟩ := cronSegmentRange_star base step hasStep bounds st sp hrange
            subst hst; subst hsp; subst hstep1
            rfl

theorem parseCronParts_mono (bounds : CronBounds) (isDow : Bool) :
    ∀ (parts : List String) (b0 : Nat) (s0 : Bool) (bits : Nat) (star : Bool),
      parseCronParts bounds isDow parts (b0, s0) = .ok (bits, star) →
      ∀ d : Nat, b0.testBit d = true → bits.testBit d = true := by
  intro parts
  induction parts with
  | nil =>
    intro b0 s0 bits star h d hd
    injection h with h'
    injection h' with h1 h2
    subst h1
    exact hd
  | cons p ps ih =>
    intro b0 s0 bits star h d hd
    unfold parseCronParts at h
    dsimp only at h
    split at h
    · cases h
    · simp only [bind, Except.bind] at h
      rcases hseg : parseCronSegment (trimSpace p) bounds isDow with e | ⟨b, st⟩ <;>
        rw [hseg] at h
      · cases h
      · dsimp only at h
        refine ih (b0 ||| b) (s0 || st) bits star h d ?_
        rw [Nat.testBit_or, hd]
        rfl

theorem parseCronParts_star (bounds : CronBounds) (isDow : Bool)
    (_hmin : 0 ≤ bounds.min) (hmax : bounds.max ≤ 63) (_hle : bounds.min ≤ bounds.max) :
    ∀ (parts : List String) (b0 : Nat) (s0 : Bool) (bits : Nat),
      parseCronParts bounds isDow parts (b0, s0) = .ok (bits, true) →
      s0 = true ∨ CoversRange bits bounds.min.toNat bounds.max.toNat isDow := by
  intro parts
  induction parts with
  | nil =>
    intro b0 s0 bits h
    injection h with h'
    injection h' with h1 h2
    subst h1
    exact Or.inl h2
  | cons p ps ih =>
    intro b0 s0 bits h
    unfold parseCronParts at h
    dsimp only at h
    split at h
    · cases h
    · simp only [bind, Except.bind] at h
      rcases hseg : parseCronSegment (trimSpace p) bounds isDow with e | ⟨b, st⟩ <;>
        rw [hseg] at h
      · cases h
      · dsimp only at h
        rcases ih (b0 ||| b) (s0 || st) bits h with hs | hcov
        · rcases Bool.or_eq_true_iff.mp hs with hs0 | hst
          · exact Or.inl hs0
          · -- the star segment's bits cover the range, and they persist
            right
            subst hst
            have hb : b = buildBits bounds.min.toNat bounds.max.toNat 1 isDow :=
              parseCronSegment_star (trimSpace p) bounds isDow b hseg
            intro d h1 h2 h3
            refine parseCronParts_mono bounds isDow ps (b0 ||| b) (s0 || true) bits true h d ?_
            rw [Nat.testBit_or]
            have : b.testBit d = true := by
              rw [hb]
              exact buildBits_covers bounds.min.toNat bounds.max.toNat isDow
                (by omega) d h1 h2 h3
            rw [this]
            simp
        · exact Or.inr hcov

theorem parseCronField_star (field : String) (bounds : CronBounds) (isDow : Bool)
    (hmin : 0 ≤ bounds.min) (hmax : bounds.max ≤ 63) (hle : bounds.min ≤ bounds.max)
    (bits : Nat) (h : parseCronField field bounds isDow = .ok (bits, true)) :
    CoversRange bits bounds.min.toNat bounds.max.toNat isDow := by
  unfold parseCronField at h
  simp only [bind, Except.bind] at h
  rcases hp : parseCronParts bounds isDow (splitChar ',' field) (0, false) with e | ⟨b, st⟩ <;>
    rw [hp] at h
  · cases h
  · dsimp only at h
    split at h
    · cases h
    · injection h with h'
      injection h' with h1 h2
      subst h2
      rcases parseCronParts_star bounds isDow hmin hmax hle _ 0 false b hp with hs | hcov
      · cases hs
      · rw [← h1]
        exact hcov

theorem parseCron5_fields (expr : String) (s : CronSchedule)
    (h : parseCron5 expr = .ok s) :
    ∃ f0 f1 f2 f3 f4 : String,
      goFields (trimSpace expr) = [f0, f1, f2, f3, f4] ∧
      parseCronField f2 cronDomBounds false = .ok (s.dom, s.domStar) ∧
      parseCronField f4 cronDowBounds true = .ok (s.dow, s.dowStar) := by
  unfold parseCron5 at h
  dsimp only at h
  split at h
  · cases h
  · split at h
    case h_2 heq => cases h
    case h_1 f0 f1 f2 f3 f4 heq =>
      simp only [bind, Except.bind] at h
      rcases h0 : parseCronField f0 cronMinuteBounds false with e | ⟨minute, st0⟩ <;>
        rw [h0] at h
      · cases h
      rcases h1 : parseCronField f1 cronHourBounds false with e | ⟨hour, st1⟩ <;>
        rw [h1] at h
      · cases h
      rcases h2 : parseCronField f2 cronDomBounds false with e | ⟨dom, st2⟩ <;>
        rw [h2] at h
      · cases h
      rcases h3 : parseCronField f3 cronMonthBounds false with e | ⟨month, st3⟩ <;>
        rw [h3] at h
      · cases h
      rcases h4 : parseCronField f4 cronDowBounds true with e | ⟨dow, st4⟩ <;>
        rw [h4] at h
      · cases h
      dsimp only at h
      injection h with h'
      subst h'
      exact ⟨f0, f1, f2, f3, f4, heq, h2, h4⟩

theorem daysInMonth_le_31 (y m : Int) : daysInMonth y m ≤ 31 := by
  unfold daysInMonth
  split
  · split <;> norm_num
  · split <;> norm_num

theorem weekdayOf_range (c : Civil) : 0 ≤ weekdayOf c ∧ weekdayOf c < 7 := by
  unfold weekdayOf
  constructor
  · exact Int.emod_nonneg _ (by norm_num)
  · exact Int.emod_lt_of_pos _ (by norm_num)

/-- C1 (amended): day matching follows Vixie cron — when both the
day-of-month and day-of-week fields are `*` every (valid) day matches;
when exactly one of them is `*`, the day matches iff the restricted
field's constraint matches (not "if either constraint matches", since the
`*` side matches every day); when neither is `*`, the day matches iff
either constraint matches. -/
theorem cron_dayMatches_vixie (expr : String) (s : CronSchedule)
    (hparse : parseCron5 expr = .ok s) (c : Civil) (hc : c.Valid) :
    (s.domStar = true → s.dowStar = true → dayMatches s c = true) ∧
    (s.domStar = true → s.dowStar = false →
      dayMatches s c = hasBit s.dow (weekdayOf c)) ∧
    (s.domStar = false → s.dowStar = true →
      dayMatches s c = hasBit s.dom c.day) ∧
    (s.domStar = false → s.dowStar = false →
      dayMatches s c = (hasBit s.dom c.day || hasBit s.dow (weekdayOf c))) := by
  obtain ⟨f0, f1, f2, f3, f4, _hfields, hdomf, hdowf⟩ := parseCron5_fields expr s hparse
  obtain ⟨hm1, hm2, hd1, hd2, _⟩ := hc
  have hdom : s.domStar = true → hasBit s.dom c.day = true := by
    intro hstar
    have hcov : CoversRange s.dom 1 31 false := by
      have := parseCronField_star f2 cronDomBounds false (by norm_num [cronDomBounds])
        (by norm_num [cronDomBounds]) (by norm_num [cronDomBounds]) s.dom
        (by rw [hdomf, hstar])
      simpa [cronDomBounds] using this
    have hday31 : c.day ≤ 31 := le_trans hd2 (daysInMonth_le_31 c.year c.month)
    unfold hasBit
    rw [if_neg (by simp; omega)]
    exact hcov c.day.toNat (by omega) (by omega) (Or.inl rfl)
  have hdow : s.dowStar = true → hasBit s.dow (weekdayOf c) = true := by
    intro hstar
    have hcov : CoversRange s.dow 0 7 true := by
      have := parseCronField_star f4 cronDowBounds true (by norm_num [cronDowBounds])
        (by norm_num [cronDowBounds]) (by norm_num [cronDowBounds]) s.dow
        (by rw [hdowf, hstar])
      simpa [cronDowBounds] using this
    obtain ⟨hw1, hw2⟩ := weekdayOf_range c
    unfold hasBit
    rw [if_neg (by simp; omega)]
    exact hcov (weekdayOf c).toNat (by omega) (by omega) (Or.inr (by omega))
  refine ⟨?_, ?_, ?_, ?_⟩
  · intro h1 h2
    unfold dayMatches
    rw [h1, h2, hdom h1, hdow h2]
    rfl
  · intro h1 h2
    unfold dayMatches
    rw [h1, h2, hdom h1]
    rfl
  · intro h1 h2
    unfold dayMatches
    rw [h1, h2, hdow h2]
    simp
  · intro h1 h2
    unfold dayMatches
    rw [h1, h2]
    rfl

/-- C1 witness: `"0 9 * * 1-5"` (day-of-month `*`, day-of-week
restricted) decides by the day-of-week bit alone. -/
theorem cron_dayMatches_vixie_witness :
    dayMatches ⟨1, 512, 4294967294, 8190, 62, true, false⟩ ⟨2026, 2, 16, 9, 0⟩ =
      hasBit 62 (weekdayOf ⟨2026, 2, 16, 9, 0⟩) :=
  (cron_dayMatches_vixie "0 9 * * 1-5" ⟨1, 512, 4294967294, 8190, 62, true, false⟩
    (by decide) ⟨2026, 2, 16, 9, 0⟩ (by decide)).2.1 rfl rfl

/-- C1 counterexample: for `"0 0 15 * *"` on 1970-01-16, the
day-of-week constraint (a full `*`) matches — so "either constraint
matches" holds and the fields are not both `*` — yet the day does not
match: the code requires the restricted day-of-month to match. -/
theorem cron_dayMatches_vixie_cex :
    parseCron5 "0 0 15 * *" = Except.ok c1sched ∧
    c1sched.domStar = false ∧
    (hasBit c1sched.dom c1jan16.day || hasBit c1sched.dow (weekdayOf c1jan16)) = true ∧
    dayMatches c1sched c1jan16 = false := by
  refine ⟨by decide, rfl, by decide, by decide⟩

/-- Every month length returned by `daysInMonth` is at least 28. -/
theorem daysInMonth_ge_28 (y m : Int) : 28 ≤ daysInMonth y m := by
  unfold daysInMonth
  split
  · split <;> norm_num
  · split <;> norm_num

/-- Adding a day leaves the hour and minute fields unchanged. -/
theorem addDay_fields (c : Civil) : (addDay c).hour = c.hour ∧ (addDay c).minute = c.minute := by
  unfold addDay
  split
  · exact ⟨rfl, rfl⟩
  · split <;> exact ⟨rfl, rfl⟩

/-- On a valid time `addDay` preserves validity and advances the civil key
by at least one day. -/
theorem addDay_step (c : Civil) (hv : c.Valid) :
    (addDay c).Valid ∧ Civil.key c + 1440 ≤ (addDay c).key := by
  obtain ⟨hm1, hm2, hd1, hd2, hh1, hh2, hmin1, hmin2⟩ := hv
  have h28 := daysInMonth_ge_28 c.year c.month
  have h31 := daysInMonth_le_31 c.year c.month
  have h28' := daysInMonth_ge_28 c.year (c.month + 1)
  have h28'' := daysInMonth_ge_28 (c.year + 1) 1
  unfold addDay
  split
  case isTrue hfit =>
    constructor
    · unfold Civil.Valid
      dsimp only
      omega
    · unfold Civil.key
      dsimp only
      ring_nf
      omega
  case isFalse hfit =>
    split
    case isTrue hm =>
      constructor
      · unfold Civil.Valid
        dsimp only
        omega
      · unfold Civil.key
        dsimp only
        ring_nf
        omega
    case isFalse hm =>
      constructor
      · unfold Civil.Valid
        dsimp only
        omega
      · unfold Civil.key
        dsimp only
        ring_nf
        omega

/-- On a valid time `addHour` preserves validity and advances the civil key
by at least one hour. -/
theorem addHour_step (c : Civil) (hv : c.Valid) :
    (addHour c).Valid ∧ Civil.key c + 60 ≤ (addHour c).key := by
  obtain ⟨hm1, hm2, hd1, hd2, hh1, hh2, hmin1, hmin2⟩ := hv
  unfold addHour
  split
  case isTrue hlt =>
    constructor
    · unfold Civil.Valid
      dsimp only
      omega
    · unfold Civil.key
      dsimp only
      ring_nf
      omega
  case isFalse hlt =>
    have hc0 : (⟨c.year, c.month, c.day, 0, c.minute⟩ : Civil).Valid := by
      unfold Civil.Valid
      dsimp only
      omega
    obtain ⟨hval, hkey⟩ := addDay_step _ hc0
    refine ⟨hval, ?_⟩
    have hk0 : Civil.key ⟨c.year, c.month, c.day, 0, c.minute⟩ =
        Civil.key c - 60 * c.hour := by
      unfold Civil.key
      ring
    omega

/-- On a valid time `addMinute` preserves validity and advances the civil
key by at least one minute. -/
theorem addMinute_step (c : Civil) (hv : c.Valid) :
    (addMinute c).Valid ∧ Civil.key c + 1 ≤ (addMinute c).key := by
  obtain ⟨hm1, hm2, hd1, hd2, hh1, hh2, hmin1, hmin2⟩ := hv
  unfold addMinute
  split
  case isTrue hlt =>
    constructor
    · unfold Civil.Valid
      dsimp only
      omega
    · unfold Civil.key
      dsimp only
      ring_nf
      omega
  case isFalse hlt =>
    have hc0 : (⟨c.year, c.month, c.day, c.hour, 0⟩ : Civil).Valid := by
      unfold Civil.Valid
      dsimp only
      omega
    obtain ⟨hval, hkey⟩ := addHour_step _ hc0
    refine ⟨hval, ?_⟩
    have hk0 : Civil.key ⟨c.year, c.month, c.day, c.hour, 0⟩ =
        Civil.key c - c.minute := by
      unfold Civil.key
      ring
    omega

/-- Iterated `addHour` preserves validity and never moves backwards. -/
theorem addHoursN_step (k : Nat) : ∀ (c : Civil), c.Valid →
    (addHoursN c k).Valid ∧ Civil.key c ≤ (addHoursN c k).key := by
  induction k with
  | zero => intro c hv; exact ⟨hv, le_refl _⟩
  | succ m ih =>
    intro c hv
    obtain ⟨hval, hkey⟩ := addHour_step c hv
    obtain ⟨hval2, hkey2⟩ := ih (addHour c) hval
    have he : addHoursN c (m + 1) = addHoursN (addHour c) m := rfl
    rw [he]
    exact ⟨hval2, by omega⟩

/-- On a valid time `addMonth` preserves validity and advances the civil
key by at least 32 days worth of minutes. -/
theorem addMonth_step (c : Civil) (hv : c.Valid) :
    (addMonth c).Valid ∧ Civil.key c + 46080 ≤ (addMonth c).key := by
  obtain ⟨hm1, hm2, hd1, hd2, hh1, hh2, hmin1, hmin2⟩ := hv
  have h31 := daysInMonth_le_31 c.year c.month
  unfold addMonth
  by_cases h12 : c.month + 1 > 12
  · simp only [if_pos h12]
    have h28a := daysInMonth_ge_28 (c.year + 1) (c.month + 1 - 12)
    have h31a := daysInMonth_le_31 (c.year + 1) (c.month + 1 - 12)
    have h28b := daysInMonth_ge_28 (c.year + 1) (c.month + 1 - 12 + 1)
    have h28c := daysInMonth_ge_28 (c.year + 1 + 1) 1
    split
    · constructor
      · unfold Civil.Valid
        dsimp only
        omega
      · unfold Civil.key
        dsimp only
        ring_nf
        omega
    · split
      · constructor
        · unfold Civil.Valid
          dsimp only
          omega
        · unfold Civil.key
          dsimp only
          ring_nf
          ring_nf at h31 h28a h31a h28b h28c
          omega
      · constructor
        · unfold Civil.Valid
          dsimp only
          omega
        · unfold Civil.key
          dsimp only
          ring_nf
          ring_nf at h31 h28a h31a h28b h28c
          omega
  · simp only [if_neg h12]
    have h28a := daysInMonth_ge_28 c.year (c.month + 1)
    have h31a := daysInMonth_le_31 c.year (c.month + 1)
    have h28b := daysInMonth_ge_28 c.year (c.month + 1 + 1)
    have h28c := daysInMonth_ge_28 (c.year + 1) 1
    split
    · constructor
      · unfold Civil.Valid
        dsimp only
        omega
      · unfold Civil.key
        dsimp only
        ring_nf
        omega
    · split
      · constructor
        · unfold Civil.Valid
          dsimp only
          omega
        · unfold Civil.key
          dsimp only
          ring_nf
          ring_nf at h31 h28a h31a h28b h28c
          omega
      · constructor
        · unfold Civil.Valid
          dsimp only
          omega
        · unfold Civil.key
          dsimp only
          ring_nf
          ring_nf at h31 h28a h31a h28b h28c
          omega

/-- One month-loop iteration preserves validity and strictly increases the
civil key. -/
theorem monthStep_progress (t : Civil) (added : Bool) (hv : t.Valid) :
    (monthStepT t added).Valid ∧ Civil.key t < (monthStepT t added).key := by
  unfold monthStepT
  cases added
  · simp only [Bool.not_false, if_pos]
    obtain ⟨hm1, hm2, hd1, hd2, hh1, hh2, hmin1, hmin2⟩ := hv
    have h28 := daysInMonth_ge_28 t.year t.month
    have h31 := daysInMonth_le_31 t.year t.month
    have hc0 : (⟨t.year, t.month, 1, 0, 0⟩ : Civil).Valid := by
      unfold Civil.Valid
      dsimp only
      omega
    obtain ⟨hval, hkey⟩ := addMonth_step _ hc0
    refine ⟨hval, ?_⟩
    have hk0 : Civil.key ⟨t.year, t.month, 1, 0, 0⟩ =
        Civil.key t - (t.day - 1) * 1440 - 60 * t.hour - t.minute := by
      unfold Civil.key
      ring
    omega
  · simp only [Bool.not_true, Bool.false_eq_true, if_false]
    obtain ⟨hval, hkey⟩ := addMonth_step t hv
    exact ⟨hval, by omega⟩

/-- Zeroing the minute field of a valid time keeps it valid. -/
theorem hourWithMinZero_valid (t : Civil) (hv : t.Valid) :
    (⟨t.year, t.month, t.day, t.hour, 0⟩ : Civil).Valid := by
  obtain ⟨hm1, hm2, hd1, hd2, hh1, hh2, hmin1, hmin2⟩ := hv
  unfold Civil.Valid
  dsimp only
  omega

/-- One hour-loop iteration preserves validity and strictly increases the
civil key. -/
theorem hourStep_progress (t : Civil) (added : Bool) (hv : t.Valid) :
    (hourStepT t added).Valid ∧ Civil.key t < (hourStepT t added).key := by
  unfold hourStepT
  cases added
  · simp only [Bool.not_false, if_pos]
    obtain ⟨hval, hkey⟩ := addHour_step _ (hourWithMinZero_valid t hv)
    refine ⟨hval, ?_⟩
    have hk0 : Civil.key ⟨t.year, t.month, t.day, t.hour, 0⟩ =
        Civil.key t - t.minute := by
      unfold Civil.key
      ring
    obtain ⟨_, _, _, _, _, _, hmin1, hmin2⟩ := hv
    omega
  · simp only [Bool.not_true, Bool.false_eq_true, if_false]
    obtain ⟨hval, hkey⟩ := addHour_step t hv
    exact ⟨hval, by omega⟩

/-- One minute-loop iteration preserves validity and strictly increases the
civil key. -/
theorem minuteStep_progress (t : Civil) (hv : t.Valid) :
    (addMinute t).Valid ∧ Civil.key t < (addMinute t).key := by
  obtain ⟨hval, hkey⟩ := addMinute_step t hv
  exact ⟨hval, by omega⟩

/-- One day-loop iteration preserves validity and strictly increases the
civil key. -/
theorem dayStep_progress (t : Civil) (added : Bool) (hv : t.Valid) :
    (dayStepT t added).Valid ∧ Civil.key t < (dayStepT t added).key := by
  unfold dayStepT
  dsimp only
  cases added
  · simp only [Bool.not_false, if_pos]
    obtain ⟨hm1, hm2, hd1, hd2, hh1, hh2, hmin1, hmin2⟩ := hv
    have hc0 : (⟨t.year, t.month, t.day, 0, 0⟩ : Civil).Valid := by
      unfold Civil.Valid
      dsimp only
      omega
    obtain ⟨hval, hkey⟩ := addDay_step _ hc0
    have hh : (addDay (⟨t.year, t.month, t.day, 0, 0⟩ : Civil)).hour = 0 :=
      (addDay_fields _).1
    rw [if_neg (by rw [hh]; exact fun hne => hne rfl)]
    refine ⟨hval, ?_⟩
    have hk0 : Civil.key ⟨t.year, t.month, t.day, 0, 0⟩ =
        Civil.key t - 60 * t.hour - t.minute := by
      unfold Civil.key
      ring
    omega
  · simp only [Bool.not_true, Bool.false_eq_true, if_false]
    obtain ⟨hval, hkey⟩ := addDay_step t hv
    obtain ⟨hfh, hfm⟩ := addDay_fields t
    obtain ⟨km1, km2, kd1, kd2, kh1, kh2, kmin1, kmin2⟩ := hval
    by_cases hh0 : (addDay t).hour ≠ 0
    · rw [if_pos hh0]
      by_cases hh12 : (addDay t).hour > 12
      · rw [if_pos hh12]
        obtain ⟨hval2, hkey2⟩ := addHoursN_step (24 - (addDay t).hour).toNat (addDay t)
          ⟨km1, km2, kd1, kd2, kh1, kh2, kmin1, kmin2⟩
        exact ⟨hval2, by omega⟩
      · rw [if_neg hh12]
        have hk2 : Civil.key ⟨(addDay t).year, (addDay t).month, (addDay t).day, 0,
            (addDay t).minute⟩ = Civil.key (addDay t) - 60 * (addDay t).hour := by
          unfold Civil.key
          ring
        constructor
        · unfold Civil.Valid
          dsimp only
          omega
        · omega
    · rw [if_neg hh0]
      exact ⟨⟨km1, km2, kd1, kd2, kh1, kh2, kmin1, kmin2⟩, by omega⟩

/-- The `Next` loop nest either gives up with the zero time or produces a
valid time no earlier than its valid starting point. -/
theorem cronIter_progress (s : CronSchedule) (yl : Int) :
    ∀ (fuel : Nat) (stage : CronStage) (t : Civil) (added : Bool), t.Valid →
      cronIter s yl fuel stage t added = zeroCivil ∨
      ((cronIter s yl fuel stage t added).Valid ∧
        Civil.key t ≤ (cronIter s yl fuel stage t added).key) := by
  intro fuel
  induction fuel with
  | zero =>
    intro stage t added _
    left
    cases stage <;> rfl
  | succ f ih =>
    intro stage t added hv
    cases stage
    case monthS =>
      rw [cronIter]
      split
      · exact ih .dayS t added hv
      · obtain ⟨hval1, hkey1⟩ := monthStep_progress t added hv
        dsimp only
        split
        · split
          · left; rfl
          · rcases ih .monthS _ true hval1 with hz | ⟨hv2, hk2⟩
            · exact Or.inl hz
            · exact Or.inr ⟨hv2, le_trans (le_of_lt hkey1) hk2⟩
        · rcases ih .monthS _ true hval1 with hz | ⟨hv2, hk2⟩
          · exact Or.inl hz
          · exact Or.inr ⟨hv2, le_trans (le_of_lt hkey1) hk2⟩
    case dayS =>
      rw [cronIter]
      split
      · exact ih .hourS t added hv
      · obtain ⟨hval1, hkey1⟩ := dayStep_progress t added hv
        dsimp only
        split
        · split
          · left; rfl
          · rcases ih .monthS _ true hval1 with hz | ⟨hv2, hk2⟩
            · exact Or.inl hz
            · exact Or.inr ⟨hv2, le_trans (le_of_lt hkey1) hk2⟩
        · rcases ih .dayS _ true hval1 with hz | ⟨hv2, hk2⟩
          · exact Or.inl hz
          · exact Or.inr ⟨hv2, le_trans (le_of_lt hkey1) hk2⟩
    case hourS =>
      rw [cronIter]
      split
      · exact ih .minuteS t added hv
      · obtain ⟨hval1, hkey1⟩ := hourStep_progress t added hv
        dsimp only
        split
        · split
          · left; rfl
          · rcases ih .monthS _ true hval1 with hz | ⟨hv2, hk2⟩
            · exact Or.inl hz
            · exact Or.inr ⟨hv2, le_trans (le_of_lt hkey1) hk2⟩
        · rcases ih .hourS _ true hval1 with hz | ⟨hv2, hk2⟩
          · exact Or.inl hz
          · exact Or.inr ⟨hv2, le_trans (le_of_lt hkey1) hk2⟩
    case minuteS =>
      rw [cronIter]
      split
      · exact Or.inr ⟨hv, le_refl _⟩
      · obtain ⟨hval1, hkey1⟩ := minuteStep_progress t hv
        dsimp only
        split
        · split
          · left; rfl
          · rcases ih .monthS _ true hval1 with hz | ⟨hv2, hk2⟩
            · exact Or.inl hz
            · exact Or.inr ⟨hv2, le_trans (le_of_lt hkey1) hk2⟩
        · rcases ih .minuteS _ true hval1 with hz | ⟨hv2, hk2⟩
          · exact Or.inl hz
          · exact Or.inr ⟨hv2, le_trans (le_of_lt hkey1) hk2⟩

/-- A successful search from a valid start is valid and no earlier than the
start. -/
theorem cronSearch_progress (s : CronSchedule) (c0 : Civil) (hv : c0.Valid) :
    cronSearch s c0 = zeroCivil ∨
    ((cronSearch s c0).Valid ∧ Civil.key c0 ≤ (cronSearch s c0).key) := by
  unfold cronSearch
  dsimp only
  rw [if_neg (by omega)]
  exact cronIter_progress s (c0.year + 5) cronFuel .monthS c0 false hv

/-- A successful `Next` from a valid time is valid and strictly later,
thanks to the initial one-minute round-up. -/
theorem cronNext_progress (s : CronSchedule) (t : Civil) (hv : t.Valid) :
    cronNext s t = zeroCivil ∨
    ((cronNext s t).Valid ∧ Civil.key t < (cronNext s t).key) := by
  obtain ⟨hval, hkey⟩ := addMinute_step t hv
  unfold cronNext
  rcases cronSearch_progress s (addMinute t) hval with hz | ⟨hv2, hk2⟩
  · exact Or.inl hz
  · exact Or.inr ⟨hv2, by omega⟩

/-- C9: for every parseable 5-field cron expression and every valid time
whose next two computed occurrences are not the zero time, `Next` is
strictly increasing at minute granularity: `Next(E, Next(E, t)) >
Next(E, t)`.  (When the search finds no occurrence within the year
horizon, `Next` returns the zero time and the strict inequality fails,
as the counterexample shows.) -/
theorem cron_next_strict_monotone (expr : String) (s : CronSchedule)
    (_hparse : parseCron5 expr = Except.ok s) (t : Civil) (hv : t.Valid)
    (h1 : cronNext s t ≠ zeroCivil) (h2 : cronNext s (cronNext s t) ≠ zeroCivil) :
    Civil.key (cronNext s t) < Civil.key (cronNext s (cronNext s t)) := by
  rcases cronNext_progress s t hv with hz | ⟨hval1, hkey1⟩
  · exact absurd hz h1
  · rcases cronNext_progress s (cronNext s t) hval1 with hz | ⟨hval2, hkey2⟩
    · exact absurd hz h2
    · exact hkey2

set_option maxRecDepth 100000 in
theorem cron_next_strict_monotone_witness :
    Civil.key (cronNext c9star epochCivil) <
      Civil.key (cronNext c9star (cronNext c9star epochCivil)) :=
  cron_next_strict_monotone "* * * * *" c9star (by decide) epochCivil (by decide)
    (by decide) (by decide)

set_option maxRecDepth 100000 in
/-- For the parseable expression "0 0 31 2 *" (day 31 of February, which
never exists) `Next` returns the zero time from the epoch and again from
the zero time, so `Next(E, Next(E, t)) > Next(E, t)` fails. -/
theorem cron_next_monotone_cex :
    parseCron5 "0 0 31 2 *" = Except.ok c9sched ∧
    epochCivil.Valid ∧
    ¬ Civil.key (cronNext c9sched epochCivil) <
        Civil.key (cronNext c9sched (cronNext c9sched epochCivil)) :=
  ⟨by decide, by decide, by decide⟩
